import Mathlib

/-!
Verification development for the Zyra bot dispatch kernel
(`src/zyra`): the command registry (`core/cmd_dispatcher.py`), the
event bus (`core/event_dispatcher.py`, `listener.py`), the module
lifecycle manager (`core/module_extender.py`) and the response
pipeline (`command.py`, `util/tg.py`, `core/telegram_bot.py`).
Python dictionaries are embedded as insertion-ordered association
lists, Python exceptions as explicit error values threaded through
return types (a raised exception leaves the mutations performed so
far in place, so fallible operations return the post-mutation state
together with an optional error).
-/

set_option maxHeartbeats 1000000
set_option maxRecDepth 4000

namespace Zyra

/-- Payload filter attached to a listener or a command.  Models the
`telegram.ext.filters.BaseFilter` hierarchy at the precision the
dispatcher inspects it: a `MessageFilter` carries a predicate the
event dispatcher evaluates on a message payload (payloads are
identified by a numeric id), while any other `BaseFilter` subclass is
opaque to the event dispatcher and never matches a message argument. -/
inductive Filt where
  | msgFilter (pred : Nat → Bool)
  | otherFilter

/-- `zyra.command.Command`: the descriptor record built by
`Command.__init__` (`command.py`).  Handler functions are identified
by a numeric id; the owning module instance by a numeric id as well
(Python compares these references by identity). -/
structure Command where
  name : String
  module : Nat
  func : Nat
  filters : Option Filt
  desc : Option String
  usage : Option String
  usageOptional : Bool
  usageReply : Bool
  aliases : List String

/-- Modelled from the spec: `module.ExistingCommandError` lives in
`zyra/module.py`, which is not among the sources; per the spec the
duplicate-command error carries references to both the existing and
the conflicting `Command`, and the dispatcher additionally passes an
`alias` flag when the collision is on an alias key. -/
structure ExistingCommandError where
  orig : Command
  conflict : Command
  isAlias : Bool

/-- Insertion-ordered association list embedding a Python `dict`. -/
abbrev ListMap (α : Type) := List (String × α)

/-- `m[k]` lookup: first entry with the given key. -/
def lookupKey {α : Type} : ListMap α → String → Option α
  | [], _ => none
  | (k, v) :: rest, key => if k = key then some v else lookupKey rest key

/-- `k in m` membership test on a Python dict. -/
def containsKey {α : Type} (m : ListMap α) (k : String) : Bool :=
  (lookupKey m k).isSome

/-- `m[k] = v` for a key that is not yet present: Python dicts append
new keys in insertion order. -/
def insertKey {α : Type} (m : ListMap α) (k : String) (v : α) : ListMap α :=
  m ++ [(k, v)]

/-- `m[k] = v` for a key that is already present: the entry is updated
in place, keeping its position. -/
def updateKey {α : Type} (m : ListMap α) (k : String) (v : α) : ListMap α :=
  m.map (fun p => if p.1 = k then (k, v) else p)

/-- `del m[k]` (all entries with the key; on a well-formed map there is
at most one). -/
def eraseKey {α : Type} (m : ListMap α) (k : String) : ListMap α :=
  m.filter (fun p => !(p.1 == k))

/-- Folding `eraseKey` over a list of keys. -/
def eraseKeys {α : Type} (m : ListMap α) (ks : List String) : ListMap α :=
  ks.foldl eraseKey m

/-- The command map owned by `CommandDispatcher` (`self.commands`). -/
abbrev CmdMap := ListMap Command

/-- The alias loop at the end of `CommandDispatcher.register_command`
(`cmd_dispatcher.py` lines 54-58): each alias is checked against the
current map and inserted; on a collision the error is raised with the
insertions made so far left in place. -/
def registerAliases (cmd : Command) : List String → CmdMap → CmdMap × Option ExistingCommandError
  | [], m => (m, none)
  | a :: rest, m =>
    match lookupKey m a with
    | some orig => (m, some ⟨orig, cmd, true⟩)
    | none => registerAliases cmd rest (insertKey m a cmd)

/-- `CommandDispatcher.register_command` (`cmd_dispatcher.py` lines
24-58): builds the `Command`, raises `ExistingCommandError` if the
name is taken, otherwise inserts the name key and then walks the
aliases.  Returns the post-mutation map together with the raised
error, if any. -/
def register_command (m : CmdMap) (mod : Nat) (name : String) (func : Nat)
    (filt : Option Filt) (desc usage : Option String)
    (usageOptional usageReply : Bool) (aliases : List String) :
    CmdMap × Option ExistingCommandError :=
  let cmd : Command := ⟨name, mod, func, filt, desc, usage, usageOptional, usageReply, aliases⟩
  match lookupKey m name with
  | some orig => (m, some ⟨orig, cmd, false⟩)
  | none => registerAliases cmd aliases (insertKey m name cmd)

/-- Python `KeyError`. -/
structure PyKeyError where
  key : String

/-- `CommandDispatcher.unregister_command` (`cmd_dispatcher.py` lines
60-66): `del self.commands[cmd.name]` (a bare delete raising
`KeyError` when the key is absent) followed by a `try`-guarded delete
of every alias key (missing alias keys are tolerated). -/
def unregister_command (m : CmdMap) (cmd : Command) : CmdMap × Option PyKeyError :=
  if containsKey m cmd.name then
    (eraseKeys (eraseKey m cmd.name) cmd.aliases, none)
  else
    (m, some ⟨cmd.name⟩)

section RegistryLemmas

theorem lookupKey_append {α : Type} (m m₂ : ListMap α) (k : String) :
    lookupKey (m ++ m₂) k = ((lookupKey m k).orElse (fun _ => lookupKey m₂ k)) := by
  induction m with
  | nil => simp [lookupKey]
  | cons p rest ih =>
    obtain ⟨pk, pv⟩ := p
    by_cases h : pk = k
    · simp [lookupKey, h]
    · simp [lookupKey, h, ih]

theorem containsKey_insertKey_of {α : Type} (m : ListMap α) (k k' : String) (v : α)
    (h : containsKey m k = true) : containsKey (insertKey m k' v) k = true := by
  unfold containsKey at h ⊢
  unfold insertKey
  rw [lookupKey_append]
  cases hl : lookupKey m k with
  | none => rw [hl] at h; simp at h
  | some w => simp [hl, Option.orElse]

theorem registerAliases_conflict_eq (cmd : Command) (as : List String) (m : CmdMap)
    (e : ExistingCommandError) (h : (registerAliases cmd as m).2 = some e) :
    e.conflict = cmd := by
  induction as generalizing m with
  | nil => simp [registerAliases] at h
  | cons a rest ih =>
    unfold registerAliases at h
    cases hl : lookupKey m a with
    | some orig =>
      rw [hl] at h
      simp at h
      rw [← h]
    | none =>
      rw [hl] at h
      exact ih _ h

theorem registerAliases_isSome (cmd : Command) (as : List String) (m : CmdMap)
    (h : as.any (containsKey m) = true) :
    ((registerAliases cmd as m).2).isSome = true := by
  induction as generalizing m with
  | nil => simp at h
  | cons a rest ih =>
    unfold registerAliases
    cases hl : lookupKey m a with
    | some orig => simp
    | none =>
      simp only [List.any_cons, Bool.or_eq_true] at h
      rcases h with h | h
      · unfold containsKey at h
        rw [hl] at h
        simp at h
      · apply ih
        rw [List.any_eq_true] at h ⊢
        obtain ⟨x, hx, hcx⟩ := h
        exact ⟨x, hx, containsKey_insertKey_of _ _ _ _ hcx⟩

theorem registerAliases_contains_mono (cmd : Command) (as : List String) (m : CmdMap)
    (k : String) (h : containsKey m k = true) :
    containsKey (registerAliases cmd as m).1 k = true := by
  induction as generalizing m with
  | nil => simpa [registerAliases] using h
  | cons a rest ih =>
    unfold registerAliases
    cases hl : lookupKey m a with
    | some orig => simpa using h
    | none => exact ih _ (containsKey_insertKey_of _ _ _ _ h)

end RegistryLemmas

theorem containsKey_insertKey_self {α : Type} (m : ListMap α) (k : String) (v : α) :
    containsKey (insertKey m k v) k = true := by
  unfold containsKey insertKey
  rw [lookupKey_append]
  cases hl : lookupKey m k with
  | none => simp [hl, Option.orElse, lookupKey]
  | some w => simp [hl, Option.orElse]

theorem lookupKey_eraseKey {α : Type} (m : ListMap α) (key k : String) :
    lookupKey (eraseKey m key) k = if k = key then none else lookupKey m k := by
  induction m with
  | nil => simp [eraseKey, lookupKey]
  | cons p rest ih =>
    obtain ⟨pk, pv⟩ := p
    simp only [eraseKey, List.filter_cons] at ih ⊢
    by_cases hpk : pk = key
    · rw [if_neg (by simp [hpk])]
      rw [ih]
      by_cases hk : k = key
      · simp [hk]
      · simp only [if_neg hk]
        simp [lookupKey, show ¬ pk = k from fun h => hk (h.symm.trans hpk)]
    · rw [if_pos (by simp [hpk])]
      by_cases hpk2 : pk = k
      · have hkey : ¬ k = key := fun h => hpk (hpk2.trans h)
        simp [lookupKey, hpk2, hkey]
      · simp [lookupKey, hpk2, ih]

theorem lookupKey_eraseKeys {α : Type} (ks : List String) (m : ListMap α) (k : String) :
    lookupKey (eraseKeys m ks) k = if k ∈ ks then none else lookupKey m k := by
  induction ks generalizing m with
  | nil => simp [eraseKeys]
  | cons a rest ih =>
    show lookupKey (eraseKeys (eraseKey m a) rest) k = _
    rw [ih, lookupKey_eraseKey]
    by_cases hk : k ∈ rest
    · simp [hk]
    · by_cases ha : k = a <;> simp [hk, ha]

/-- C2: registering a command whose name or alias collides with an
existing key always raises the duplicate error, and the error carries
the conflicting `Command`; when the collision is on the command name,
the map is returned unchanged and the error also carries the existing
`Command`; but when the name is fresh and only an alias collides, the
name key has already been inserted and remains in the map after the
error — the insert is partial, the registry is not restored. -/
theorem C2_register_command_duplicate (m : CmdMap) (mod : Nat) (name : String) (func : Nat)
    (filt : Option Filt) (desc usage : Option String) (uo ur : Bool) (aliases : List String)
    (h : containsKey m name = true ∨ aliases.any (containsKey m) = true) :
    (((register_command m mod name func filt desc usage uo ur aliases).2).isSome = true) ∧
    (∀ e, (register_command m mod name func filt desc usage uo ur aliases).2 = some e →
      e.conflict = ⟨name, mod, func, filt, desc, usage, uo, ur, aliases⟩) ∧
    (∀ orig, lookupKey m name = some orig →
      register_command m mod name func filt desc usage uo ur aliases =
        (m, some ⟨orig, ⟨name, mod, func, filt, desc, usage, uo, ur, aliases⟩, false⟩)) ∧
    (containsKey m name = false →
      containsKey (register_command m mod name func filt desc usage uo ur aliases).1 name = true) := by
  unfold register_command
  cases hl : lookupKey m name with
  | some orig =>
    refine ⟨by simp, ?_, ?_, ?_⟩
    · intro e he
      simp at he
      rw [← he]
    · intro orig2 horig2
      injection horig2 with horig2
      subst horig2
      rfl
    · intro hfalse
      unfold containsKey at hfalse
      rw [hl] at hfalse
      simp at hfalse
  | none =>
    have hany : aliases.any (containsKey m) = true := by
      rcases h with h | h
      · unfold containsKey at h
        rw [hl] at h
        simp at h
      · exact h
    have hany2 : aliases.any
        (containsKey (insertKey m name ⟨name, mod, func, filt, desc, usage, uo, ur, aliases⟩)) = true := by
      rw [List.any_eq_true] at hany ⊢
      obtain ⟨x, hx, hcx⟩ := hany
      exact ⟨x, hx, containsKey_insertKey_of _ _ _ _ hcx⟩
    refine ⟨registerAliases_isSome _ _ _ hany2, ?_, ?_, ?_⟩
    · intro e he
      exact registerAliases_conflict_eq _ _ _ _ he
    · intro orig horig
      exact Option.noConfusion horig
    · intro _
      exact registerAliases_contains_mono _ _ _ _ (containsKey_insertKey_self _ _ _)

/-- Concrete key strings used in the concrete registry scenarios. -/
def strA : String := "a"

/-- Concrete key string "b". -/
def strB : String := "b"

/-- Concrete key string "c". -/
def strC : String := "c"

/-- A command owned by module 0 registered under the key "b",
used as the pre-existing registry content in concrete scenarios. -/
def cmdB : Command := ⟨strB, 0, 0, none, none, none, false, false, []⟩

/-- C2 counterexample: registering a command named "a" with alias "b"
against a registry already holding the key "b" raises the duplicate
error, yet the command map after the call is NOT equal to the map
before the call — the key "a" was inserted before the alias collision
was detected, so the claim that no key is partially inserted fails. -/
theorem C2_counterexample :
    ((register_command [(strB, cmdB)] 1 strA 1 none none none false false [strB]).2).isSome = true ∧
    ¬ ((register_command [(strB, cmdB)] 1 strA 1 none none none false false [strB]).1 = [(strB, cmdB)]) := by
  refine ⟨rfl, ?_⟩
  intro h
  have h2 : (register_command [(strB, cmdB)] 1 strA 1 none none none false false [strB]).1.length = 2 := rfl
  rw [h] at h2
  simp at h2

/-- Witness for the amended C2 theorem at a concrete input: a direct
name collision on the key "b". -/
theorem C2_witness :
    ((register_command [(strB, cmdB)] 1 strB 1 none none none false false []).2).isSome = true :=
  (C2_register_command_duplicate [(strB, cmdB)] 1 strB 1 none none none false false []
    (Or.inl rfl)).1

/-- C9: `unregister_command` deletes the key `c.name` and every alias
key of `c` from the command map whenever present, without checking
that those keys currently map to `c`: every key equal to the name or
to one of the aliases is absent afterwards (even if it mapped to a
different command, as in the alias-collision rollback scenario), and
every other key keeps its previous binding. -/
theorem C9_unregister_command_unconditional (m : CmdMap) (c : Command)
    (h : containsKey m c.name = true) :
    ∃ m', unregister_command m c = (m', none) ∧
      ∀ k : String, lookupKey m' k =
        if k = c.name ∨ k ∈ c.aliases then none else lookupKey m k := by
  refine ⟨eraseKeys (eraseKey m c.name) c.aliases, ?_, ?_⟩
  · unfold unregister_command
    rw [h]
    simp
  · intro k
    rw [lookupKey_eraseKeys, lookupKey_eraseKey]
    by_cases h1 : k ∈ c.aliases
    · simp [h1]
    · by_cases h2 : k = c.name <;> simp [h1, h2]

/-- A command named "c" owned by module 1 whose alias list contains
"b" — the string under which `cmdB` (a different module's command) is
registered. -/
def cmdC : Command := ⟨strC, 1, 1, none, none, none, false, false, [strB]⟩

/-- Witness for C9 at a concrete input: unregistering `cmdC` from a
map holding both `cmdC` (under "c") and the other module's `cmdB`
(under "b", which `cmdC` lists as an alias). -/
theorem C9_witness :
    ∃ m', unregister_command [(strC, cmdC), (strB, cmdB)] cmdC = (m', none) ∧
      ∀ k : String, lookupKey m' k =
        if k = cmdC.name ∨ k ∈ cmdC.aliases then none
        else lookupKey [(strC, cmdC), (strB, cmdB)] k :=
  C9_unregister_command_unconditional [(strC, cmdC), (strB, cmdB)] cmdC rfl

/-- `zyra.listener.Listener` (`listener.py` lines 25-47): event name,
bound handler function, owning module and execution priority, plus the
optional payload filter.  The handler is identified by a numeric id;
since every registration builds a fresh `Listener` object and binds a
distinct handler object, this id also stands for the Python object
identity that `list.remove` compares. -/
structure Listener where
  event : String
  func : Nat
  module : Nat
  priority : Int
  filters : Option Filt

/-- The event-name-to-listener-sequence map owned by
`EventDispatcher` (`self.listeners`). -/
abbrev ListenerMap := ListMap (List Listener)

/-- CPython `bisect.bisect_right` driven by `Listener.__lt__`
(`listener.py` lines 46-47, comparing priorities): binary search for
the insertion point, phrased with an explicit iteration budget — the
loop halves `hi - lo` each round, so a budget of the list length
covers every call the dispatcher makes. -/
def bisectRightAux (a : List Listener) (x : Listener) : Nat → Nat → Nat → Nat
  | 0, lo, _ => lo
  | fuel + 1, lo, hi =>
    if lo < hi then
      let mid := (lo + hi) / 2
      if x.priority < (a.getD mid x).priority then bisectRightAux a x fuel lo mid
      else bisectRightAux a x fuel (mid + 1) hi
    else lo

/-- `bisect.bisect_right(a, x)` over the whole list. -/
def bisectRight (a : List Listener) (x : Listener) : Nat :=
  bisectRightAux a x a.length 0 a.length

/-- `bisect.insort(a, x)`: insert `x` at the `bisect_right` position,
i.e. after every element that does not compare greater than `x`
(`event_dispatcher.py` line 49). -/
def insort (a : List Listener) (x : Listener) : List Listener :=
  let i := bisectRight a x
  a.take i ++ x :: a.drop i

/-- The event-name marker convention stripped by the dispatcher. -/
def onMarker : String := "on_"

/-- The built-in lifecycle event names that reject filters
(`event_dispatcher.py` line 37). -/
def builtinEvents : List String := [r"load", r"start", r"started", r"stop", r"stopped"]

/-- `EventDispatcher.register_listener` (`event_dispatcher.py` lines
24-53): normalizes the event name by stripping the `on_` marker
(Python `startswith` and slicing are character-wise, modeled here on
the character list), silently discards a filter aimed at a built-in
lifecycle event, then inserts the fresh `Listener` into the event's
ordered sequence with `bisect.insort` (or creates a singleton
sequence for a new event name).  The trailing `update_module_events`
call only rewires transport handlers and does not touch the listener
map. -/
def register_listener (m : ListenerMap) (mod : Nat) (event : String) (func : Nat)
    (priority : Int) (filt : Option Filt) : ListenerMap :=
  let event := if onMarker.toList.isPrefixOf event.toList
    then String.mk (event.toList.drop 3) else event
  let filt := if builtinEvents.contains event && filt.isSome then none else filt
  let l : Listener := ⟨event, func, mod, priority, filt⟩
  match lookupKey m event with
  | some lst => updateKey m event (insort lst l)
  | none => insertKey m event [l]

/-- Python exceptions surfaced by the lifecycle operations. -/
inductive PyExc where
  | existingCommand (e : ExistingCommandError)
  | existingModule (clsName : String)
  | keyError (key : String)
  | valueError

/-- `list.remove` by object identity on a listener sequence: drops the
first element whose identity (handler id) matches. -/
def removeListener : List Listener → Nat → List Listener
  | [], _ => []
  | x :: xs, f => if x.func = f then xs else x :: removeListener xs f

/-- Membership by object identity in a listener sequence. -/
def containsListener (lst : List Listener) (f : Nat) : Bool :=
  lst.any (fun x => x.func == f)

/-- `EventDispatcher.unregister_listener` (`event_dispatcher.py` lines
55-59): `self.listeners[listener.event].remove(listener)` — a
`KeyError` if the event has no sequence, a `ValueError` if the
listener is not in it — then drops the event key entirely when the
sequence became empty. -/
def unregister_listener (m : ListenerMap) (l : Listener) : ListenerMap × Option PyExc :=
  match lookupKey m l.event with
  | none => (m, some (PyExc.keyError l.event))
  | some lst =>
    if containsListener lst l.func then
      let lst2 := removeListener lst l.func
      if lst2.isEmpty then (eraseKey m l.event, none)
      else (updateKey m l.event lst2, none)
    else (m, some PyExc.valueError)

/-- The inner collection loop of `EventDispatcher.unregister_listeners`
(`event_dispatcher.py` lines 94-101): every listener owned by the
module, in map iteration order. -/
def collectModListeners (m : ListenerMap) (mod : Nat) : List Listener :=
  (m.map (fun p => p.2.filter (fun l => l.module == mod))).flatten

/-- Sequential removal of collected listeners; an exception from one
removal aborts the loop and propagates. -/
def unregisterListenersGo : List Listener → ListenerMap → ListenerMap × Option PyExc
  | [], m => (m, none)
  | l :: rest, m =>
    match unregister_listener m l with
    | (m2, none) => unregisterListenersGo rest m2
    | (m2, some e) => (m2, some e)

/-- `EventDispatcher.unregister_listeners` (`event_dispatcher.py`
lines 94-101). -/
def unregister_listeners (m : ListenerMap) (mod : Nat) : ListenerMap × Option PyExc :=
  unregisterListenersGo (collectModListeners m mod) m

/-- A module-author command declaration.  Modelled from the spec:
`util.misc.find_prefixed_funcs` (in `zyra/util/misc.py`, not among the
sources) introspects the module instance for `cmd_`-marked handlers
and yields, per handler, the name after the marker together with the
decorator metadata (`_cmd_filters`, `_cmd_description`, `_cmd_usage`,
`_cmd_usage_optional`, `_cmd_usage_reply`, `_cmd_aliases`) that
`CommandDispatcher.register_commands` reads back. -/
structure CmdDecl where
  name : String
  func : Nat
  filt : Option Filt
  desc : Option String
  usage : Option String
  usageOptional : Bool
  usageReply : Bool
  aliases : List String

/-- A module-author listener declaration.  Modelled from the spec: the
`on_`-marked handlers discovered on the module instance, with the
`_listener_priority` (default 100) and `_listener_filters` decorator
metadata. -/
structure ListenerDecl where
  event : String
  func : Nat
  priority : Int
  filt : Option Filt

/-- `EventDispatcher.register_listeners` (`event_dispatcher.py` lines
61-92): registers every discovered listener declaration in order.
`register_listener` itself never raises, so the `try` wrapper and the
fallback manual scan (which would find the same declarations) do not
alter the resulting map. -/
def register_listeners (m : ListenerMap) (mod : Nat) (decls : List ListenerDecl) : ListenerMap :=
  decls.foldl (fun acc d => register_listener acc mod d.event d.func d.priority d.filt) m

/-- The canonical-entry collection loop of
`CommandDispatcher.unregister_commands` (`cmd_dispatcher.py` lines
88-96): entries whose key equals the command's own name and whose
owner is the module. -/
def collectModCommands (m : CmdMap) (mod : Nat) : List Command :=
  (m.filter (fun p => p.1 == p.2.name && p.2.module == mod)).map Prod.snd

/-- Sequential `unregister_command` over the collected commands; a
`KeyError` from a bare name delete aborts the loop and propagates. -/
def unregisterCommandsGo : List Command → CmdMap → CmdMap × Option PyExc
  | [], m => (m, none)
  | c :: rest, m =>
    match unregister_command m c with
    | (m2, none) => unregisterCommandsGo rest m2
    | (m2, some e) => (m2, some (PyExc.keyError e.key))

/-- `CommandDispatcher.unregister_commands` (`cmd_dispatcher.py` lines
88-96). -/
def unregister_commands (m : CmdMap) (mod : Nat) : CmdMap × Option PyExc :=
  unregisterCommandsGo (collectModCommands m mod) m

/-- The registration loop of `CommandDispatcher.register_commands`
(`cmd_dispatcher.py` lines 68-86): each declaration is registered
under a `try`/`finally` whose `finally` block, when registration did
not complete, unregisters the module's commands before the duplicate
error propagates.  An error raised by the rollback itself would
replace the original one, as in Python. -/
def registerCommandsGo (mod : Nat) : List CmdDecl → CmdMap → CmdMap × Option PyExc
  | [], m => (m, none)
  | d :: rest, m =>
    match register_command m mod d.name d.func d.filt d.desc d.usage d.usageOptional
        d.usageReply d.aliases with
    | (m2, none) => registerCommandsGo mod rest m2
    | (m2, some e) =>
      match unregister_commands m2 mod with
      | (m3, none) => (m3, some (PyExc.existingCommand e))
      | (m3, some e2) => (m3, some e2)

/-- `CommandDispatcher.register_commands` (`cmd_dispatcher.py` lines
68-86). -/
def register_commands (m : CmdMap) (mod : Nat) (decls : List CmdDecl) : CmdMap × Option PyExc :=
  registerCommandsGo mod decls m

/-- A module class as the lifecycle manager sees it.  Modelled from
the spec where introspection is concerned: the class exposes a unique
`name` and declares its command and event handlers through the fixed
naming/metadata convention (the `zyra/module.py` base class is not
among the sources). -/
structure ModuleCls where
  name : String
  listenerDecls : List ListenerDecl
  cmdDecls : List CmdDecl

/-- The registries the `Zyra` runtime object aggregates: the command
map (`CommandDispatcher.commands`), the listener map
(`EventDispatcher.listeners`) and the loaded-module map
(`ModuleExtender.modules`, module name to instance, instances
identified by a numeric id). -/
structure BotState where
  commands : CmdMap
  listeners : ListenerMap
  modules : ListMap Nat

/-- `ModuleExtender.load_module` (`module_extender.py` lines 22-35):
duplicate-name check, instantiation (`inst` is the fresh instance
id), listener registration, command registration, and only then the
insertion into the loaded-module map.  A command registration failure
propagates after `register_commands` ran its rollback, leaving the
listener map as registration left it and the module absent. -/
def load_module (st : BotState) (cls : ModuleCls) (inst : Nat) : BotState × Option PyExc :=
  if containsKey st.modules cls.name then
    (st, some (PyExc.existingModule cls.name))
  else
    let lm := register_listeners st.listeners inst cls.listenerDecls
    match register_commands st.commands inst cls.cmdDecls with
    | (cm, none) => (⟨cm, lm, insertKey st.modules cls.name inst⟩, none)
    | (cm, some e) => (⟨cm, lm, st.modules⟩, some e)

/-- `ModuleExtender.unload_module` (`module_extender.py` lines 37-43):
unregister the module's listeners, then its commands, then
`del self.modules[cls.name]` — a bare delete that raises `KeyError`
when the name is not in the loaded-module map. -/
def unload_module (st : BotState) (clsName : String) (inst : Nat) : BotState × Option PyExc :=
  match unregister_listeners st.listeners inst with
  | (lm, some e) => (⟨st.commands, lm, st.modules⟩, some e)
  | (lm, none) =>
    match unregister_commands st.commands inst with
    | (cm, some e) => (⟨cm, lm, st.modules⟩, some e)
    | (cm, none) =>
      if containsKey st.modules clsName then
        (⟨cm, lm, eraseKey st.modules clsName⟩, none)
      else
        (⟨cm, lm, st.modules⟩, some (PyExc.keyError clsName))

theorem collectModCommands_eq_nil (m : CmdMap) (i : Nat)
    (h : ∀ p ∈ m, p.2.module ≠ i) : collectModCommands m i = [] := by
  unfold collectModCommands
  have : m.filter (fun p => p.1 == p.2.name && p.2.module == i) = [] := by
    rw [List.filter_eq_nil_iff]
    intro p hp
    simp only [Bool.and_eq_true, beq_iff_eq, not_and]
    intro _
    exact h p hp
  rw [this]
  rfl

/-- C1 (amended): when `load_module` fails because the first command
declaration's name is already a key held by another module, the
command map and the loaded-module map equal their pre-load state (the
rollback finds nothing to undo because nothing of this attempt was
fully registered), the raised error carries the existing and the
conflicting command, but the listener map is NOT rolled back: every
listener registered for this load attempt remains in it. -/
theorem C1_load_module_no_listener_rollback (st : BotState) (cls : ModuleCls) (inst : Nat)
    (d : CmdDecl) (ds : List CmdDecl) (orig : Command)
    (hmod : containsKey st.modules cls.name = false)
    (hdecls : cls.cmdDecls = d :: ds)
    (horig : lookupKey st.commands d.name = some orig)
    (hfresh : ∀ p ∈ st.commands, p.2.module ≠ inst) :
    load_module st cls inst =
      (⟨st.commands, register_listeners st.listeners inst cls.listenerDecls, st.modules⟩,
        some (PyExc.existingCommand
          ⟨orig, ⟨d.name, inst, d.func, d.filt, d.desc, d.usage, d.usageOptional,
            d.usageReply, d.aliases⟩, false⟩)) := by
  have hreg : register_command st.commands inst d.name d.func d.filt d.desc d.usage
      d.usageOptional d.usageReply d.aliases =
      (st.commands, some ⟨orig, ⟨d.name, inst, d.func, d.filt, d.desc, d.usage,
        d.usageOptional, d.usageReply, d.aliases⟩, false⟩) := by
    unfold register_command
    rw [horig]
  have hroll : unregister_commands st.commands inst = (st.commands, none) := by
    unfold unregister_commands
    rw [collectModCommands_eq_nil st.commands inst hfresh]
    rfl
  have hcmds : register_commands st.commands inst cls.cmdDecls =
      (st.commands, some (PyExc.existingCommand
        ⟨orig, ⟨d.name, inst, d.func, d.filt, d.desc, d.usage, d.usageOptional,
          d.usageReply, d.aliases⟩, false⟩)) := by
    rw [hdecls]
    unfold register_commands registerCommandsGo
    rw [hreg]
    dsimp only
    rw [hroll]
  unfold load_module
  rw [hmod]
  simp only [Bool.false_eq_true, if_false, hcmds]

/-- Concrete event name used in scenarios. -/
def strEvt : String := "evt"

/-- Concrete key string "x". -/
def strX : String := "x"

/-- Concrete key string "p". -/
def strP : String := "p"

/-- Concrete module class name "A". -/
def strModA : String := "A"

/-- Concrete module class name "B". -/
def strModB : String := "B"

/-- Concrete module class name "M". -/
def strModM : String := "M"

/-- The command "x" owned by the already-loaded module instance 0. -/
def cmdX : Command := ⟨strX, 0, 0, none, none, none, false, false, []⟩

/-- A listener declaration for event "evt" (priority 100, no filter). -/
def declEvt : ListenerDecl := ⟨strEvt, 10, 100, none⟩

/-- A command declaration whose name "x" collides with `cmdX`. -/
def declX : CmdDecl := ⟨strX, 11, none, none, none, false, false, []⟩

/-- A state with module "A" (instance 0) loaded, owning command "x"
and no listeners. -/
def stA : BotState := ⟨[(strX, cmdX)], [], [(strModA, 0)]⟩

/-- A module class "B" declaring one listener and one command whose
name collides with the loaded command "x". -/
def clsB : ModuleCls := ⟨strModB, [declEvt], [declX]⟩

/-- C1 counterexample: loading `clsB` (one listener on "evt", one
command colliding on "x") into `stA` fails with the duplicate error,
yet the listener map after the failed load is NOT equal to the
listener map before the load — the listener registered for the
attempt survives, so the registries do not all equal their pre-load
state. -/
theorem C1_counterexample :
    ((load_module stA clsB 1).2).isSome = true ∧
    ¬ ((load_module stA clsB 1).1.listeners = stA.listeners) := by
  refine ⟨rfl, ?_⟩
  intro h
  have h2 : (load_module stA clsB 1).1.listeners.length = 1 := rfl
  rw [h] at h2
  simp [stA] at h2

/-- Witness for the amended C1 theorem at the concrete `stA`/`clsB`
scenario. -/
theorem C1_witness :
    load_module stA clsB 1 =
      (⟨stA.commands, register_listeners stA.listeners 1 clsB.listenerDecls, stA.modules⟩,
        some (PyExc.existingCommand
          ⟨cmdX, ⟨declX.name, 1, declX.func, declX.filt, declX.desc, declX.usage,
            declX.usageOptional, declX.usageReply, declX.aliases⟩, false⟩)) :=
  C1_load_module_no_listener_rollback stA clsB 1 declX [] cmdX rfl rfl rfl
    (by
      intro p hp
      simp only [stA, List.mem_singleton] at hp
      subst hp
      simp [cmdX])

/-- The command "p" owned by module instance 0 (for module "M"). -/
def cmdP : Command := ⟨strP, 0, 2, none, none, none, false, false, []⟩

/-- The "evt" listener owned by module instance 0 (for module "M"). -/
def lP : Listener := ⟨strEvt, 3, 0, 100, none⟩

/-- A state with exactly module "M" (instance 0) loaded, owning one
command and one listener. -/
def stM : BotState := ⟨[(strP, cmdP)], [(strEvt, [lP])], [(strModM, 0)]⟩

/-- C3 counterexample: the first `unload_module` of "M" succeeds, but
calling it a second time raises `KeyError` from the bare
`del self.modules[cls.name]` — the second call is not an
exception-free no-op. -/
theorem C3_counterexample :
    ((unload_module stM strModM 0).2 = none) ∧
    ((unload_module (unload_module stM strModM 0).1 strModM 0).2 =
      some (PyExc.keyError strModM)) :=
  ⟨rfl, rfl⟩

section CmdUnloadLemmas

theorem pairwise_strengthen {α : Type} {R S : α → α → Prop} :
    ∀ {l : List α}, (∀ a b, a ∈ l → b ∈ l → R a b → S a b) → l.Pairwise R → l.Pairwise S := by
  intro l
  induction l with
  | nil => intro _ _; exact List.Pairwise.nil
  | cons a rest ih =>
    intro h hp
    rcases List.pairwise_cons.mp hp with ⟨hhead, htail⟩
    refine List.pairwise_cons.mpr ⟨?_, ?_⟩
    · intro b hb
      exact h a b (List.mem_cons_self a rest) (List.mem_cons_of_mem a hb) (hhead b hb)
    · exact ih (fun x y hx hy => h x y (List.mem_cons_of_mem a hx) (List.mem_cons_of_mem a hy)) htail

theorem mem_eraseKey {α : Type} (m : ListMap α) (k : String) (p : String × α) :
    p ∈ eraseKey m k ↔ p ∈ m ∧ ¬ p.1 = k := by
  simp [eraseKey, List.mem_filter]

theorem mem_eraseKeys {α : Type} (ks : List String) (m : ListMap α) (p : String × α) :
    p ∈ eraseKeys m ks ↔ p ∈ m ∧ ∀ k ∈ ks, ¬ p.1 = k := by
  induction ks generalizing m with
  | nil => simp [eraseKeys]
  | cons a rest ih =>
    show p ∈ eraseKeys (eraseKey m a) rest ↔ _
    rw [ih, mem_eraseKey]
    constructor
    · rintro ⟨⟨hm, ha⟩, hrest⟩
      refine ⟨hm, ?_⟩
      intro k hk
      rcases List.mem_cons.mp hk with h | h
      · rw [h]; exact ha
      · exact hrest k h
    · rintro ⟨hm, hall⟩
      exact ⟨⟨hm, hall a (List.mem_cons_self a rest)⟩,
        fun k hk => hall k (List.mem_cons_of_mem a hk)⟩

theorem containsKey_of_mem {α : Type} (m : ListMap α) (k : String) (v : α)
    (h : (k, v) ∈ m) : containsKey m k = true := by
  induction m with
  | nil => cases h
  | cons p rest ih =>
    obtain ⟨pk, pv⟩ := p
    unfold containsKey lookupKey
    by_cases hk : pk = k
    · simp [hk]
    · simp only [hk, if_false]
      rcases List.mem_cons.mp h with h | h
      · exact absurd (congrArg Prod.fst h).symm hk
      · exact ih h

theorem lookupKey_of_mem_nodup {α : Type} (m : ListMap α) (k : String) (v : α)
    (hnd : (m.map Prod.fst).Nodup) (h : (k, v) ∈ m) : lookupKey m k = some v := by
  induction m with
  | nil => cases h
  | cons p rest ih =>
    obtain ⟨pk, pv⟩ := p
    rw [List.map_cons, List.nodup_cons] at hnd
    rcases List.mem_cons.mp h with h | h
    · have hk : pk = k := (congrArg Prod.fst h).symm
      have hv : pv = v := (congrArg Prod.snd h).symm
      unfold lookupKey
      simp [hk, hv]
    · unfold lookupKey
      by_cases hk : pk = k
      · exfalso
        apply hnd.1
        rw [hk]
        exact List.mem_map.mpr ⟨(k, v), h, rfl⟩
      · simp only [hk, if_false]
        exact ih hnd.2 h

theorem value_eq_of_mem_nodup {α : Type} (m : ListMap α) (k : String) (v w : α)
    (hnd : (m.map Prod.fst).Nodup) (hv : (k, v) ∈ m) (hw : (k, w) ∈ m) : v = w := by
  have h1 := lookupKey_of_mem_nodup m k v hnd hv
  have h2 := lookupKey_of_mem_nodup m k w hnd hw
  rw [h1] at h2
  exact Option.some.inj h2

theorem unregisterCommandsGo_ok (cs : List Command) :
    ∀ m : CmdMap,
    (∀ c ∈ cs, containsKey m c.name = true) →
    cs.Pairwise (fun c c2 => c2.name ≠ c.name ∧ c2.name ∉ c.aliases) →
    ∃ m', unregisterCommandsGo cs m = (m', none) ∧
      ∀ p : String × Command,
        (p ∈ m' ↔ p ∈ m ∧ ∀ c ∈ cs, ¬ p.1 = c.name ∧ p.1 ∉ c.aliases) := by
  induction cs with
  | nil =>
    intro m _ _
    refine ⟨m, rfl, ?_⟩
    intro p
    simp [unregisterCommandsGo]
  | cons c rest ih =>
    intro m hpres hpw
    have hc : containsKey m c.name = true := hpres c (List.mem_cons_self c rest)
    have hstep : unregister_command m c = (eraseKeys m (c.name :: c.aliases), none) := by
      unfold unregister_command
      rw [hc]
      simp only [if_true]
      rfl
    rcases List.pairwise_cons.mp hpw with ⟨hhead, htail⟩
    have hpres2 : ∀ c2 ∈ rest, containsKey (eraseKeys m (c.name :: c.aliases)) c2.name = true := by
      intro c2 hc2
      unfold containsKey
      rw [lookupKey_eraseKeys]
      have hnot : ¬ c2.name ∈ (c.name :: c.aliases) := by
        intro hmem
        rcases List.mem_cons.mp hmem with h | h
        · exact (hhead c2 hc2).1 h
        · exact (hhead c2 hc2).2 h
      rw [if_neg hnot]
      exact hpres c2 (List.mem_cons_of_mem c hc2)
    obtain ⟨m', hrun, hmem⟩ := ih (eraseKeys m (c.name :: c.aliases)) hpres2 htail
    refine ⟨m', ?_, ?_⟩
    · unfold unregisterCommandsGo
      rw [hstep]
      exact hrun
    · intro p
      rw [hmem p, mem_eraseKeys]
      constructor
      · rintro ⟨⟨hm, hkeys⟩, hrest⟩
        refine ⟨hm, ?_⟩
        intro c2 hc2
        rcases List.mem_cons.mp hc2 with h | h
        · subst h
          exact ⟨hkeys c2.name (List.mem_cons_self _ _),
            fun ha => hkeys p.1 (List.mem_cons_of_mem _ ha) rfl⟩
        · exact hrest c2 h
      · rintro ⟨hm, hall⟩
        refine ⟨⟨hm, ?_⟩, ?_⟩
        · intro k hk
          rcases List.mem_cons.mp hk with h | h
          · rw [h]
            exact (hall c (List.mem_cons_self c rest)).1
          · intro hpk
            exact (hall c (List.mem_cons_self c rest)).2 (hpk ▸ h)
        · exact fun c2 h2 => hall c2 (List.mem_cons_of_mem c h2)

/-- Well-formedness of the command map as successful registrations
produce it: keys are unique, every key is the name or an alias of the
command it maps to, and a command's canonical name entry and alias
entries are all present and map to that command. -/
def CmdMapWF (m : CmdMap) : Prop :=
  ((m.map Prod.fst).Nodup) ∧
  (∀ p ∈ m, p.1 = p.2.name ∨ p.1 ∈ p.2.aliases) ∧
  (∀ p ∈ m, (p.2.name, p.2) ∈ m) ∧
  (∀ p ∈ m, ∀ a ∈ p.2.aliases, (a, p.2) ∈ m)

theorem unregister_commands_clears (m : CmdMap) (i : Nat) (hwf : CmdMapWF m) :
    ∃ m', unregister_commands m i = (m', none) ∧
      (∀ p ∈ m', p ∈ m) ∧ (∀ p : String × Command, p ∈ m' → p.2.module ≠ i) := by
  obtain ⟨hnd, hkey, hcanon, halias⟩ := hwf
  have hescond : ∀ p : String × Command,
      (p.1 == p.2.name && p.2.module == i) = true ↔ (p.1 = p.2.name ∧ p.2.module = i) := by
    intro p
    simp
  have hcsmem : ∀ c ∈ collectModCommands m i,
      (c.name, c) ∈ m ∧ c.module = i := by
    intro c hc
    unfold collectModCommands at hc
    rcases List.mem_map.mp hc with ⟨p, hp, hpc⟩
    rcases List.mem_filter.mp hp with ⟨hpm, hcond⟩
    rcases (hescond p).mp hcond with ⟨h1, h2⟩
    subst hpc
    exact ⟨h1 ▸ hpm, h2⟩
  have hpres : ∀ c ∈ collectModCommands m i, containsKey m c.name = true := by
    intro c hc
    exact containsKey_of_mem m c.name c (hcsmem c hc).1
  have hespw : (m.filter (fun p => p.1 == p.2.name && p.2.module == i)).Pairwise
      (fun p q => q.2.name ≠ p.2.name ∧ q.2.name ∉ p.2.aliases) := by
    have h1 : m.Pairwise (fun p q => p.1 ≠ q.1) := List.pairwise_map.mp hnd
    have h2 : (m.filter (fun p => p.1 == p.2.name && p.2.module == i)).Pairwise
        (fun p q => p.1 ≠ q.1) :=
      List.Pairwise.sublist (List.filter_sublist m) h1
    refine pairwise_strengthen ?_ h2
    intro p q hp hq hR
    have hpm : p ∈ m := (List.mem_filter.mp hp).1
    have hqm : q ∈ m := (List.mem_filter.mp hq).1
    have hpc : p.1 = p.2.name := ((hescond p).mp (List.mem_filter.mp hp).2).1
    have hqc : q.1 = q.2.name := ((hescond q).mp (List.mem_filter.mp hq).2).1
    constructor
    · intro heq
      exact hR (by rw [hpc, hqc, heq])
    · intro ha
      have h3 : (q.2.name, p.2) ∈ m := halias p hpm q.2.name ha
      have h4 : (q.2.name, q.2) ∈ m := by
        have := hcanon q hqm
        exact this
      have h5 : p.2 = q.2 := value_eq_of_mem_nodup m q.2.name p.2 q.2 hnd h3 h4
      apply hR
      rw [hpc, hqc, h5]
  have hcspw : (collectModCommands m i).Pairwise
      (fun c c2 => c2.name ≠ c.name ∧ c2.name ∉ c.aliases) := by
    unfold collectModCommands
    exact List.pairwise_map.mpr hespw
  obtain ⟨m', hrun, hmem⟩ := unregisterCommandsGo_ok (collectModCommands m i) m hpres hcspw
  refine ⟨m', hrun, ?_, ?_⟩
  · intro p hp
    exact ((hmem p).mp hp).1
  · intro p hp hmod
    obtain ⟨hpm, hall⟩ := (hmem p).mp hp
    have hcanonp : (p.2.name, p.2) ∈ m := hcanon p hpm
    have hcs : p.2 ∈ collectModCommands m i := by
      unfold collectModCommands
      refine List.mem_map.mpr ⟨(p.2.name, p.2), ?_, rfl⟩
      refine List.mem_filter.mpr ⟨hcanonp, ?_⟩
      simp [hmod]
    have h6 := hall p.2 hcs
    rcases hkey p hpm with h | h
    · exact h6.1 h
    · exact h6.2 h

end CmdUnloadLemmas

section ListenerUnloadLemmas

/-- All handler ids held anywhere in the listener map, bucket by
bucket. -/
def allFuncs (m : ListenerMap) : List Nat :=
  (m.map (fun p => p.2.map Listener.func)).flatten

theorem mem_of_lookupKey {α : Type} (m : ListMap α) (k : String) (v : α)
    (h : lookupKey m k = some v) : (k, v) ∈ m := by
  induction m with
  | nil => cases h
  | cons p rest ih =>
    obtain ⟨pk, pv⟩ := p
    unfold lookupKey at h
    by_cases hk : pk = k
    · rw [if_pos hk] at h
      injection h with h
      rw [← hk, ← h]
      exact List.mem_cons_self _ _
    · rw [if_neg hk] at h
      exact List.mem_cons_of_mem _ (ih h)

theorem containsKey_eq_false_of_not_mem {α : Type} (m : ListMap α) (k : String)
    (h : ¬ k ∈ m.map Prod.fst) : containsKey m k = false := by
  cases hc : containsKey m k with
  | false => rfl
  | true =>
    exfalso
    unfold containsKey at hc
    cases hl : lookupKey m k with
    | none => rw [hl] at hc; cases hc
    | some v =>
      exact h (List.mem_map.mpr ⟨(k, v), mem_of_lookupKey m k v hl, rfl⟩)

theorem updateKey_of_not_contains {α : Type} (m : ListMap α) (k : String) (v : α)
    (h : ¬ k ∈ m.map Prod.fst) : updateKey m k v = m := by
  induction m with
  | nil => rfl
  | cons p rest ih =>
    obtain ⟨pk, pv⟩ := p
    simp only [List.map_cons, List.mem_cons] at h
    push_neg at h
    unfold updateKey
    simp only [List.map_cons]
    have hpk : ¬ pk = k := fun he => h.1 he.symm
    rw [if_neg hpk]
    have := ih h.2
    unfold updateKey at this
    rw [this]

theorem lookupKey_updateKey_self {α : Type} (m : ListMap α) (k : String) (v : α)
    (h : containsKey m k = true) : lookupKey (updateKey m k v) k = some v := by
  induction m with
  | nil => unfold containsKey lookupKey at h; cases h
  | cons p rest ih =>
    obtain ⟨pk, pv⟩ := p
    unfold updateKey
    simp only [List.map_cons]
    by_cases hpk : pk = k
    · rw [if_pos hpk]
      unfold lookupKey
      simp
    · rw [if_neg hpk]
      unfold lookupKey
      rw [if_neg hpk]
      apply ih
      unfold containsKey lookupKey at h
      rw [if_neg hpk] at h
      exact h

theorem lookupKey_updateKey_ne {α : Type} (m : ListMap α) (k k2 : String) (v : α)
    (h : ¬ k2 = k) : lookupKey (updateKey m k v) k2 = lookupKey m k2 := by
  induction m with
  | nil => rfl
  | cons p rest ih =>
    obtain ⟨pk, pv⟩ := p
    unfold updateKey
    simp only [List.map_cons]
    by_cases hpk : pk = k
    · rw [if_pos hpk]
      unfold lookupKey
      have : ¬ k = k2 := fun he => h he.symm
      rw [if_neg this]
      have hpk2 : ¬ pk = k2 := by rw [hpk]; exact this
      rw [if_neg hpk2]
      exact ih
    · rw [if_neg hpk]
      unfold lookupKey
      by_cases hpk2 : pk = k2
      · rw [if_pos hpk2, if_pos hpk2]
      · rw [if_neg hpk2, if_neg hpk2]
        exact ih

theorem updateKey_map_fst {α : Type} (m : ListMap α) (k : String) (v : α) :
    (updateKey m k v).map Prod.fst = m.map Prod.fst := by
  induction m with
  | nil => rfl
  | cons p rest ih =>
    obtain ⟨pk, pv⟩ := p
    unfold updateKey at ih ⊢
    simp only [List.map_cons]
    by_cases hpk : pk = k
    · rw [if_pos hpk, ih]
      simp [hpk]
    · rw [if_neg hpk, ih]

theorem mem_updateKey {α : Type} (m : ListMap α) (k : String) (v : α) (p2 : String × α)
    (h : p2 ∈ updateKey m k v) : (p2 ∈ m ∧ ¬ p2.1 = k) ∨ p2 = (k, v) := by
  rcases List.mem_map.mp h with ⟨q, hq, heq⟩
  by_cases hqk : q.1 = k
  · right
    rw [← heq, if_pos hqk]
  · left
    rw [← heq, if_neg hqk]
    exact ⟨hq, hqk⟩

theorem removeListener_mem {lst : List Listener} {f : Nat} {x : Listener}
    (h : x ∈ removeListener lst f) : x ∈ lst := by
  induction lst with
  | nil => cases h
  | cons y ys ih =>
    unfold removeListener at h
    by_cases hy : y.func = f
    · rw [if_pos hy] at h
      exact List.mem_cons_of_mem y h
    · rw [if_neg hy] at h
      rcases List.mem_cons.mp h with h | h
      · rw [h]; exact List.mem_cons_self y ys
      · exact List.mem_cons_of_mem y (ih h)

theorem removeListener_func_ne {lst : List Listener} {f : Nat} {x : Listener}
    (hnd : (lst.map Listener.func).Nodup)
    (h : x ∈ removeListener lst f) : x.func ≠ f := by
  induction lst with
  | nil => cases h
  | cons y ys ih =>
    rw [List.map_cons, List.nodup_cons] at hnd
    unfold removeListener at h
    by_cases hy : y.func = f
    · rw [if_pos hy] at h
      intro hx
      apply hnd.1
      have : x.func ∈ ys.map Listener.func := List.mem_map.mpr ⟨x, h, rfl⟩
      rw [hx, ← hy] at this
      exact this
    · rw [if_neg hy] at h
      rcases List.mem_cons.mp h with h | h
      · rw [h]; exact hy
      · exact ih hnd.2 h

theorem containsListener_removeListener {lst : List Listener} {f f2 : Nat} (hne : f2 ≠ f) :
    containsListener (removeListener lst f) f2 = containsListener lst f2 := by
  induction lst with
  | nil => rfl
  | cons y ys ih =>
    unfold removeListener
    by_cases hy : y.func = f
    · rw [if_pos hy]
      unfold containsListener
      simp only [List.any_cons]
      have hf2 : (y.func == f2) = false := by
        rw [hy]
        exact beq_eq_false_iff_ne.mpr (Ne.symm hne)
      rw [hf2]
      simp
    · rw [if_neg hy]
      unfold containsListener at ih ⊢
      simp only [List.any_cons]
      rw [ih]

theorem removeListener_sublist (lst : List Listener) (f : Nat) :
    (removeListener lst f).Sublist lst := by
  induction lst with
  | nil => exact List.Sublist.refl _
  | cons y ys ih =>
    unfold removeListener
    by_cases hy : y.func = f
    · rw [if_pos hy]
      exact List.sublist_cons_self y ys
    · rw [if_neg hy]
      exact ih.cons₂ y

theorem flatten_map_sublist {α β : Type} (m : List α) (f g : α → List β)
    (h : ∀ x ∈ m, (f x).Sublist (g x)) :
    ((m.map f).flatten).Sublist ((m.map g).flatten) := by
  induction m with
  | nil => exact List.Sublist.refl _
  | cons a rest ih =>
    simp only [List.map_cons, List.flatten_cons]
    exact (h a (List.mem_cons_self a rest)).append
      (ih (fun x hx => h x (List.mem_cons_of_mem a hx)))

theorem allFuncs_eraseKey_sublist (m : ListenerMap) (k : String) :
    (allFuncs (eraseKey m k)).Sublist (allFuncs m) := by
  unfold allFuncs eraseKey
  induction m with
  | nil => exact List.Sublist.refl _
  | cons p rest ih =>
    simp only [List.filter_cons, List.map_cons, List.flatten_cons]
    by_cases hp : (!(p.1 == k)) = true
    · rw [if_pos hp]
      simp only [List.map_cons, List.flatten_cons]
      exact (List.Sublist.refl _).append ih
    · rw [if_neg hp]
      exact ih.trans (List.sublist_append_right _ _)

theorem allFuncs_updateKey_sublist (m : ListenerMap) (k : String) (lst lst2 : List Listener)
    (hkeys : (m.map Prod.fst).Nodup) (hlook : lookupKey m k = some lst)
    (hsub : lst2.Sublist lst) :
    (allFuncs (updateKey m k lst2)).Sublist (allFuncs m) := by
  induction m with
  | nil => cases hlook
  | cons p rest ih =>
    obtain ⟨pk, pv⟩ := p
    rw [List.map_cons, List.nodup_cons] at hkeys
    unfold allFuncs updateKey
    simp only [List.map_cons, List.flatten_cons]
    by_cases hpk : pk = k
    · rw [if_pos hpk]
      unfold lookupKey at hlook
      rw [if_pos hpk] at hlook
      injection hlook with hlook
      have hrest : updateKey rest k lst2 = rest := by
        apply updateKey_of_not_contains
        rw [← hpk]
        exact hkeys.1
      unfold updateKey at hrest
      rw [hrest]
      dsimp only
      rw [hlook]
      exact (hsub.map Listener.func).append (List.Sublist.refl _)
    · rw [if_neg hpk]
      unfold lookupKey at hlook
      rw [if_neg hpk] at hlook
      dsimp only
      exact (List.Sublist.refl _).append (ih hkeys.2 hlook)

theorem bucket_funcs_nodup (m : ListenerMap) (p : String × List Listener)
    (hglob : (allFuncs m).Nodup) (hp : p ∈ m) : (p.2.map Listener.func).Nodup := by
  have h := (List.nodup_flatten.mp hglob).1
  exact h _ (List.mem_map.mpr ⟨p, hp, rfl⟩)

theorem bucket_funcs_disjoint (m : ListenerMap) (p q : String × List Listener)
    (hglob : (allFuncs m).Nodup) (hp : p ∈ m) (hq : q ∈ m) (hne : p.1 ≠ q.1) :
    List.Disjoint (p.2.map Listener.func) (q.2.map Listener.func) := by
  have hpw : (m.map (fun r => r.2.map Listener.func)).Pairwise List.Disjoint :=
    (List.nodup_flatten.mp hglob).2
  have hpw2 : m.Pairwise (fun r s => List.Disjoint (r.2.map Listener.func) (s.2.map Listener.func)) :=
    List.pairwise_map.mp hpw
  have hsym : Symmetric (fun r s : String × List Listener =>
      List.Disjoint (r.2.map Listener.func) (s.2.map Listener.func)) :=
    fun _ _ h => h.symm
  exact hpw2.forall hsym hp hq (fun he => hne (congrArg Prod.fst he))

theorem unregisterListenersGo_ok (cs : List Listener) :
    ∀ m : ListenerMap,
    ((m.map Prod.fst).Nodup) →
    ((allFuncs m).Nodup) →
    (∀ l ∈ cs, ∃ lst, lookupKey m l.event = some lst ∧ containsListener lst l.func = true) →
    cs.Pairwise (fun a b => a.func ≠ b.func) →
    ∃ m', unregisterListenersGo cs m = (m', none) ∧
      ∀ p2 ∈ m', ∃ lst, (p2.1, lst) ∈ m ∧
        ∀ x ∈ p2.2, x ∈ lst ∧ ¬ x.func ∈ cs.map Listener.func := by
  induction cs with
  | nil =>
    intro m _ _ _ _
    refine ⟨m, rfl, ?_⟩
    intro p2 hp2
    refine ⟨p2.2, ?_, ?_⟩
    · rw [Prod.mk.eta]; exact hp2
    · intro x hx
      exact ⟨hx, by simp⟩
  | cons l rest ih =>
    intro m hkeys hglob hpres hfun
    obtain ⟨lst, hlook, hcont⟩ := hpres l (List.mem_cons_self l rest)
    have hlstmem : (l.event, lst) ∈ m := mem_of_lookupKey _ _ _ hlook
    rcases List.pairwise_cons.mp hfun with ⟨hlhead, hltail⟩
    have hlfmem : l.func ∈ lst.map Listener.func := by
      unfold containsListener at hcont
      rcases List.any_eq_true.mp hcont with ⟨y, hy, hyf⟩
      exact List.mem_map.mpr ⟨y, hy, beq_iff_eq.mp hyf⟩
    have hcontrest : ∀ l2 ∈ rest, l2.event = l.event →
        containsListener (removeListener lst l.func) l2.func = true := by
      intro l2 hl2 hev
      obtain ⟨lst2, hlook2, hcont2⟩ := hpres l2 (List.mem_cons_of_mem l hl2)
      rw [hev, hlook] at hlook2
      injection hlook2 with hlook2
      rw [containsListener_removeListener (hlhead l2 hl2).symm]
      rw [hlook2]
      exact hcont2
    by_cases hemp : (removeListener lst l.func).isEmpty = true
    · -- the bucket became empty: the event key is dropped
      have hstep : unregister_listener m l = (eraseKey m l.event, none) := by
        unfold unregister_listener
        rw [hlook]
        simp only [hcont, if_true, hemp]
      have hkeys2 : ((eraseKey m l.event).map Prod.fst).Nodup :=
        List.Nodup.sublist ((List.filter_sublist m).map Prod.fst) hkeys
      have hglob2 : (allFuncs (eraseKey m l.event)).Nodup :=
        List.Nodup.sublist (allFuncs_eraseKey_sublist m l.event) hglob
      have hpres2 : ∀ l2 ∈ rest, ∃ lst2,
          lookupKey (eraseKey m l.event) l2.event = some lst2 ∧
          containsListener lst2 l2.func = true := by
        intro l2 hl2
        obtain ⟨lst2, hlook2, hcont2⟩ := hpres l2 (List.mem_cons_of_mem l hl2)
        by_cases hev : l2.event = l.event
        · exfalso
          have h1 := hcontrest l2 hl2 hev
          rw [List.isEmpty_iff.mp hemp] at h1
          cases h1
        · refine ⟨lst2, ?_, hcont2⟩
          rw [lookupKey_eraseKey, if_neg hev]
          exact hlook2
      obtain ⟨m', hrun, hmem⟩ := ih (eraseKey m l.event) hkeys2 hglob2 hpres2 hltail
      refine ⟨m', ?_, ?_⟩
      · unfold unregisterListenersGo
        rw [hstep]
        exact hrun
      · intro p2 hp2
        obtain ⟨lstE, hEmem, hx⟩ := hmem p2 hp2
        rcases (mem_eraseKey m l.event (p2.1, lstE)).mp hEmem with ⟨hEm, hEne⟩
        refine ⟨lstE, hEm, ?_⟩
        intro x hxm
        obtain ⟨hx1, hx2⟩ := hx x hxm
        refine ⟨hx1, ?_⟩
        simp only [List.map_cons, List.mem_cons]
        push_neg
        refine ⟨?_, fun hr => hx2 hr⟩
        intro hxf
        have hdisj := bucket_funcs_disjoint m (p2.1, lstE) (l.event, lst) hglob hEm hlstmem hEne
        exact hdisj (List.mem_map.mpr ⟨x, hx1, rfl⟩) (hxf ▸ hlfmem)
    · -- the bucket stays, updated in place
      have hstep : unregister_listener m l =
          (updateKey m l.event (removeListener lst l.func), none) := by
        unfold unregister_listener
        rw [hlook]
        simp only [hcont, if_true, hemp]
        rfl
      have hkeys2 : ((updateKey m l.event (removeListener lst l.func)).map Prod.fst).Nodup := by
        rw [updateKey_map_fst]
        exact hkeys
      have hglob2 : (allFuncs (updateKey m l.event (removeListener lst l.func))).Nodup :=
        List.Nodup.sublist
          (allFuncs_updateKey_sublist m l.event lst _ hkeys hlook (removeListener_sublist lst l.func))
          hglob
      have hpres2 : ∀ l2 ∈ rest, ∃ lst2,
          lookupKey (updateKey m l.event (removeListener lst l.func)) l2.event = some lst2 ∧
          containsListener lst2 l2.func = true := by
        intro l2 hl2
        obtain ⟨lst2, hlook2, hcont2⟩ := hpres l2 (List.mem_cons_of_mem l hl2)
        by_cases hev : l2.event = l.event
        · refine ⟨removeListener lst l.func, ?_, hcontrest l2 hl2 hev⟩
          rw [hev]
          apply lookupKey_updateKey_self
          unfold containsKey
          rw [hlook]
          rfl
        · refine ⟨lst2, ?_, hcont2⟩
          rw [lookupKey_updateKey_ne m l.event l2.event _ hev]
          exact hlook2
      obtain ⟨m', hrun, hmem⟩ := ih (updateKey m l.event (removeListener lst l.func))
        hkeys2 hglob2 hpres2 hltail
      refine ⟨m', ?_, ?_⟩
      · unfold unregisterListenersGo
        rw [hstep]
        exact hrun
      · intro p2 hp2
        obtain ⟨lstE, hEmem, hx⟩ := hmem p2 hp2
        rcases mem_updateKey m l.event _ (p2.1, lstE) hEmem with ⟨hEm, hEne⟩ | hEeq
        · refine ⟨lstE, hEm, ?_⟩
          intro x hxm
          obtain ⟨hx1, hx2⟩ := hx x hxm
          refine ⟨hx1, ?_⟩
          simp only [List.map_cons, List.mem_cons]
          push_neg
          refine ⟨?_, fun hr => hx2 hr⟩
          intro hxf
          have hdisj := bucket_funcs_disjoint m (p2.1, lstE) (l.event, lst) hglob hEm hlstmem hEne
          exact hdisj (List.mem_map.mpr ⟨x, hx1, rfl⟩) (hxf ▸ hlfmem)
        · have h1 : p2.1 = l.event := congrArg Prod.fst hEeq
          have h2 : lstE = removeListener lst l.func := congrArg Prod.snd hEeq
          refine ⟨lst, h1 ▸ hlstmem, ?_⟩
          intro x hxm
          obtain ⟨hx1, hx2⟩ := hx x hxm
          rw [h2] at hx1
          refine ⟨removeListener_mem hx1, ?_⟩
          simp only [List.map_cons, List.mem_cons]
          push_neg
          refine ⟨?_, fun hr => hx2 hr⟩
          exact removeListener_func_ne (bucket_funcs_nodup m (l.event, lst) hglob hlstmem) hx1

/-- Well-formedness of the listener map as registrations produce it:
event keys are unique, every listener sits in the bucket of its own
(normalized) event name, and no handler id occurs twice anywhere. -/
def ListenerMapWF (m : ListenerMap) : Prop :=
  ((m.map Prod.fst).Nodup) ∧
  (∀ p ∈ m, ∀ x ∈ p.2, x.event = p.1) ∧
  ((allFuncs m).Nodup)

theorem unregister_listeners_clears (m : ListenerMap) (i : Nat) (hwf : ListenerMapWF m) :
    ∃ m', unregister_listeners m i = (m', none) ∧
      ∀ p2 ∈ m', ∀ x ∈ p2.2, x.module ≠ i := by
  obtain ⟨hkeys, hev, hglob⟩ := hwf
  have hcsmem : ∀ l ∈ collectModListeners m i, ∃ p ∈ m, l ∈ p.2 ∧ l.module = i := by
    intro l hl
    unfold collectModListeners at hl
    rcases List.mem_flatten.mp hl with ⟨s, hs, hls⟩
    rcases List.mem_map.mp hs with ⟨p, hp, rfl⟩
    rcases List.mem_filter.mp hls with ⟨h1, h2⟩
    exact ⟨p, hp, h1, beq_iff_eq.mp h2⟩
  have hpres : ∀ l ∈ collectModListeners m i, ∃ lst,
      lookupKey m l.event = some lst ∧ containsListener lst l.func = true := by
    intro l hl
    obtain ⟨p, hp, hlp, _⟩ := hcsmem l hl
    refine ⟨p.2, ?_, ?_⟩
    · rw [hev p hp l hlp]
      have : (p.1, p.2) ∈ m := by rw [Prod.mk.eta]; exact hp
      exact lookupKey_of_mem_nodup m p.1 p.2 hkeys this
    · exact List.any_eq_true.mpr ⟨l, hlp, beq_self_eq_true _⟩
  have hcsfuncs : ((collectModListeners m i).map Listener.func).Nodup := by
    unfold collectModListeners
    rw [List.map_flatten, List.map_map]
    apply List.Nodup.sublist _ hglob
    unfold allFuncs
    apply flatten_map_sublist
    intro p _
    exact (List.filter_sublist p.2).map Listener.func
  have hfun : (collectModListeners m i).Pairwise (fun a b => a.func ≠ b.func) :=
    List.pairwise_map.mp hcsfuncs
  obtain ⟨m', hrun, hmem⟩ := unregisterListenersGo_ok (collectModListeners m i) m
    hkeys hglob hpres hfun
  refine ⟨m', hrun, ?_⟩
  intro p2 hp2 x hx hmod
  obtain ⟨lstE, hEm, hxall⟩ := hmem p2 hp2
  obtain ⟨hx1, hx2⟩ := hxall x hx
  apply hx2
  apply List.mem_map.mpr
  refine ⟨x, ?_, rfl⟩
  unfold collectModListeners
  apply List.mem_flatten.mpr
  refine ⟨lstE.filter (fun y => y.module == i), ?_, ?_⟩
  · exact List.mem_map.mpr ⟨(p2.1, lstE), hEm, rfl⟩
  · exact List.mem_filter.mpr ⟨hx1, by simp [hmod]⟩

end ListenerUnloadLemmas

/-- C3 (amended): unloading a loaded module removes every command and
every listener whose owner reference equals the module's instance
(the sub-steps tolerate already-missing alias entries), and the module
name leaves the loaded-module map; but calling `unload_module` a
second time after a successful unload is NOT an exception-free no-op:
the listener and command sub-steps find nothing to do, and then the
bare `del self.modules[cls.name]` raises `KeyError`. -/
theorem C3_unload_removes_owned_second_raises (st : BotState) (clsName : String) (inst : Nat)
    (hcwf : CmdMapWF st.commands) (hlwf : ListenerMapWF st.listeners)
    (hloaded : containsKey st.modules clsName = true) :
    ∃ st', unload_module st clsName inst = (st', none) ∧
      (∀ p : String × Command, p ∈ st'.commands → p.2.module ≠ inst) ∧
      (∀ p ∈ st'.listeners, ∀ x ∈ p.2, x.module ≠ inst) ∧
      containsKey st'.modules clsName = false ∧
      (unload_module st' clsName inst).2 = some (PyExc.keyError clsName) := by
  obtain ⟨lm, hlrun, hlclear⟩ := unregister_listeners_clears st.listeners inst hlwf
  obtain ⟨cm, hcrun, _, hcclear⟩ := unregister_commands_clears st.commands inst hcwf
  have hmodgone : containsKey (eraseKey st.modules clsName) clsName = false := by
    unfold containsKey
    rw [lookupKey_eraseKey]
    simp
  have hfirst : unload_module st clsName inst =
      (⟨cm, lm, eraseKey st.modules clsName⟩, none) := by
    unfold unload_module
    rw [hlrun]
    dsimp only
    rw [hcrun]
    dsimp only
    rw [hloaded]
    simp
  refine ⟨⟨cm, lm, eraseKey st.modules clsName⟩, hfirst, hcclear, hlclear, hmodgone, ?_⟩
  have hl2 : unregister_listeners lm inst = (lm, none) := by
    have hnil : collectModListeners lm inst = [] := by
      unfold collectModListeners
      rw [List.flatten_eq_nil_iff]
      intro s hs
      rcases List.mem_map.mp hs with ⟨p, hp, rfl⟩
      rw [List.filter_eq_nil_iff]
      intro x hx
      simp only [beq_iff_eq]
      exact hlclear p hp x hx
    unfold unregister_listeners
    rw [hnil]
    rfl
  have hc2 : unregister_commands cm inst = (cm, none) := by
    unfold unregister_commands
    rw [collectModCommands_eq_nil cm inst (fun p hp => hcclear p hp)]
    rfl
  unfold unload_module
  rw [hl2]
  dsimp only
  rw [hc2]
  dsimp only
  rw [hmodgone]
  simp

/-- Witness for the amended C3 theorem at the concrete single-module
state `stM`. -/
theorem C3_witness :
    ∃ st', unload_module stM strModM 0 = (st', none) ∧
      (∀ p : String × Command, p ∈ st'.commands → p.2.module ≠ 0) ∧
      (∀ p ∈ st'.listeners, ∀ x ∈ p.2, x.module ≠ 0) ∧
      containsKey st'.modules strModM = false ∧
      (unload_module st' strModM 0).2 = some (PyExc.keyError strModM) :=
  C3_unload_removes_owned_second_raises stM strModM 0
    (by
      refine ⟨?_, ?_, ?_, ?_⟩
      · simp [stM]
      · intro p hp
        simp only [stM, List.mem_singleton] at hp
        subst hp
        left
        rfl
      · intro p hp
        simp only [stM, List.mem_singleton] at hp
        subst hp
        simp [stM, cmdP]
      · intro p hp a ha
        simp only [stM, List.mem_singleton] at hp
        subst hp
        simp [cmdP] at ha)
    (by
      refine ⟨?_, ?_, ?_⟩
      · simp [stM]
      · intro p hp x hx
        simp only [stM, List.mem_singleton] at hp
        subst hp
        simp only [List.mem_singleton] at hx
        subst hx
        rfl
      · simp [stM, allFuncs])
    rfl

section PriorityOrder

/-- A listener sequence in non-decreasing priority order. -/
def SortedByPriority (a : List Listener) : Prop :=
  a.Pairwise (fun y z => y.priority ≤ z.priority)

/-- The predicate characterizing the elements `bisect_right` keeps to
the left of the insertion point: those not comparing greater than the
new listener under `Listener.__lt__`. -/
def insortPred (x : Listener) : Listener → Bool :=
  fun y => ! decide (x.priority < y.priority)

/-- The stable insertion point: after every element whose priority
does not exceed the new listener's. -/
def insertPos (a : List Listener) (x : Listener) : Nat :=
  (a.takeWhile (insortPred x)).length

theorem insertPos_le_length (a : List Listener) (x : Listener) :
    insertPos a x ≤ a.length :=
  List.Sublist.length_le (List.takeWhile_sublist (insortPred x))

theorem getD_lt_insertPos (a : List Listener) (x : Listener) (j : Nat)
    (hj : j < insertPos a x) : ¬ x.priority < (a.getD j x).priority := by
  have hlen : j < (a.takeWhile (insortPred x)).length := hj
  have h1 : a.getD j x = (a.takeWhile (insortPred x)).getD j x := by
    conv_lhs => rw [← List.takeWhile_append_dropWhile (insortPred x) a]
    exact List.getD_append _ _ _ _ hlen
  rw [h1, List.getD_eq_getElem _ _ hlen]
  have hmem := List.getElem_mem hlen
  have hp := List.mem_takeWhile_imp hmem
  unfold insortPred at hp
  simpa using hp

theorem dropWhile_gt_of_sorted (a : List Listener) (x : Listener)
    (hs : SortedByPriority a) :
    ∀ y ∈ a.dropWhile (insortPred x), x.priority < y.priority := by
  induction a with
  | nil => intro y hy; simp at hy
  | cons z rest ih =>
    rcases List.pairwise_cons.mp hs with ⟨hz, hrest⟩
    intro y hy
    rw [List.dropWhile_cons] at hy
    by_cases hp : insortPred x z = true
    · rw [if_pos hp] at hy
      exact ih hrest y hy
    · rw [if_neg hp] at hy
      have hxz : x.priority < z.priority := by
        unfold insortPred at hp
        simpa using hp
      rcases List.mem_cons.mp hy with rfl | hy
      · exact hxz
      · exact lt_of_lt_of_le hxz (hz y hy)

theorem getD_ge_insertPos (a : List Listener) (x : Listener)
    (hs : SortedByPriority a) (j : Nat)
    (hj : insertPos a x ≤ j) (hlen : j < a.length) :
    x.priority < (a.getD j x).priority := by
  have h1 : a.getD j x = (a.dropWhile (insortPred x)).getD (j - insertPos a x) x := by
    conv_lhs => rw [← List.takeWhile_append_dropWhile (insortPred x) a]
    exact List.getD_append_right _ _ _ _ hj
  have htot : a.length = insertPos a x + (a.dropWhile (insortPred x)).length := by
    conv_lhs => rw [← List.takeWhile_append_dropWhile (insortPred x) a]
    rw [List.length_append]
    rfl
  have hdlen : j - insertPos a x < (a.dropWhile (insortPred x)).length := by omega
  rw [h1, List.getD_eq_getElem _ _ hdlen]
  exact dropWhile_gt_of_sorted a x hs _ (List.getElem_mem hdlen)

theorem bisectRightAux_correct (a : List Listener) (x : Listener)
    (hs : SortedByPriority a) :
    ∀ fuel lo hi, hi ≤ a.length → lo ≤ insertPos a x → insertPos a x ≤ hi →
    hi - lo ≤ fuel → bisectRightAux a x fuel lo hi = insertPos a x := by
  intro fuel
  induction fuel with
  | zero =>
    intro lo hi _ h2 h3 h4
    unfold bisectRightAux
    omega
  | succ fuel ih =>
    intro lo hi h1 h2 h3 h4
    unfold bisectRightAux
    by_cases hlt : lo < hi
    · rw [if_pos hlt]
      have hmidlo : lo ≤ (lo + hi) / 2 := by omega
      have hmidhi : (lo + hi) / 2 < hi := by omega
      by_cases hcmp : x.priority < (a.getD ((lo + hi) / 2) x).priority
      · rw [if_pos hcmp]
        have htw : insertPos a x ≤ (lo + hi) / 2 := by
          by_contra hcon
          push_neg at hcon
          exact getD_lt_insertPos a x _ hcon hcmp
        exact ih lo ((lo + hi) / 2) (by omega) h2 htw (by omega)
      · rw [if_neg hcmp]
        have htw : (lo + hi) / 2 + 1 ≤ insertPos a x := by
          by_contra hcon
          push_neg at hcon
          exact hcmp (getD_ge_insertPos a x hs _ (by omega) (by omega))
        exact ih ((lo + hi) / 2 + 1) hi h1 htw h3 (by omega)
    · rw [if_neg hlt]
      omega

theorem bisectRight_eq_insertPos (a : List Listener) (x : Listener)
    (hs : SortedByPriority a) : bisectRight a x = insertPos a x := by
  unfold bisectRight
  exact bisectRightAux_correct a x hs a.length 0 a.length (le_refl _)
    (Nat.zero_le _) (insertPos_le_length a x) (by omega)

/-- On a sorted sequence, `bisect.insort` places the new listener
after every element with priority less than or equal to its own and
before every element with strictly greater priority: stable insertion
preserving registration order among equal priorities. -/
theorem insort_eq_of_sorted (a : List Listener) (x : Listener)
    (hs : SortedByPriority a) :
    insort a x = a.takeWhile (insortPred x) ++ x :: a.dropWhile (insortPred x) := by
  obtain ⟨tk, htk⟩ : ∃ tk, a.takeWhile (insortPred x) = tk := ⟨_, rfl⟩
  obtain ⟨dr, hdr⟩ : ∃ dr, a.dropWhile (insortPred x) = dr := ⟨_, rfl⟩
  have hsplit : a = tk ++ dr := by
    rw [← htk, ← hdr]
    exact (List.takeWhile_append_dropWhile (insortPred x) a).symm
  have hpos : insertPos a x = tk.length := by
    rw [insertPos, htk]
  unfold insort
  dsimp only
  rw [bisectRight_eq_insertPos a x hs, hpos, htk, hdr, hsplit]
  rw [List.take_left, List.drop_left]

theorem insort_sorted (a : List Listener) (x : Listener)
    (hs : SortedByPriority a) : SortedByPriority (insort a x) := by
  rw [insort_eq_of_sorted a x hs]
  unfold SortedByPriority
  rw [List.pairwise_append]
  refine ⟨List.Pairwise.sublist (List.takeWhile_sublist _) hs, ?_, ?_⟩
  · rw [List.pairwise_cons]
    refine ⟨?_, List.Pairwise.sublist (List.dropWhile_sublist _) hs⟩
    intro y hy
    exact le_of_lt (dropWhile_gt_of_sorted a x hs y hy)
  · intro y hy z hz
    have hyx : y.priority ≤ x.priority := by
      have hp := List.mem_takeWhile_imp hy
      unfold insortPred at hp
      simp only [Bool.not_eq_eq_eq_not, Bool.not_true, decide_eq_false_iff_not] at hp
      omega
    rcases List.mem_cons.mp hz with rfl | hz
    · exact hyx
    · exact le_of_lt (lt_of_le_of_lt hyx (dropWhile_gt_of_sorted a x hs z hz))

/-- The per-event ordering invariant over the whole listener map. -/
def MapSorted (m : ListenerMap) : Prop :=
  ∀ p ∈ m, SortedByPriority p.2

theorem mapSorted_updateKey (m : ListenerMap) (k : String) (v : List Listener)
    (hms : MapSorted m) (hv : SortedByPriority v) : MapSorted (updateKey m k v) := by
  intro p2 hp2
  rcases mem_updateKey m k v p2 hp2 with ⟨hm, _⟩ | heq
  · exact hms p2 hm
  · rw [heq]
    exact hv

theorem register_listener_mapSorted (m : ListenerMap) (mod : Nat) (event : String)
    (f : Nat) (prio : Int) (filt : Option Filt) (hms : MapSorted m) :
    MapSorted (register_listener m mod event f prio filt) := by
  unfold register_listener
  dsimp only
  cases hl : lookupKey m (if onMarker.toList.isPrefixOf event.toList
      then String.mk (event.toList.drop 3) else event) with
  | some lst =>
    apply mapSorted_updateKey _ _ _ hms
    exact insort_sorted lst _ (hms _ (mem_of_lookupKey _ _ _ hl))
  | none =>
    intro p2 hp2
    rcases List.mem_append.mp hp2 with hm | hone
    · exact hms p2 hm
    · rw [List.mem_singleton.mp hone]
      exact List.pairwise_singleton _ _

theorem unregister_listener_mapSorted (m : ListenerMap) (l : Listener)
    (hms : MapSorted m) : MapSorted (unregister_listener m l).1 := by
  unfold unregister_listener
  cases hl : lookupKey m l.event with
  | none => exact hms
  | some lst =>
    dsimp only
    by_cases hc : containsListener lst l.func
    · rw [if_pos hc]
      by_cases he : (removeListener lst l.func).isEmpty
      · rw [if_pos he]
        intro p2 hp2
        exact hms p2 ((mem_eraseKey m l.event p2).mp hp2).1
      · rw [if_neg he]
        apply mapSorted_updateKey _ _ _ hms
        exact List.Pairwise.sublist (removeListener_sublist lst l.func)
          (hms _ (mem_of_lookupKey _ _ _ hl))
    · rw [if_neg hc]
      exact hms

end PriorityOrder

/-- An argument published with an event, at the precision
`EventDispatcher.dispatch_event` discriminates payload types
(`event_dispatcher.py` lines 112-127): a `Message` (payload id), one
of the query payloads that reject filters with a logged error, or any
other object. -/
inductive Arg where
  | message (mid : Nat)
  | callbackQuery
  | inlineQuery
  | chosenInlineResult
  | other

/-- One iteration of the filter loop body: a `MessageFilter` applied
to a `Message` argument evaluates its predicate; a query payload only
logs an error; everything else falls through without matching. -/
def argMatches (f : Filt) (a : Arg) : Bool :=
  match f, a with
  | Filt.msgFilter pred, Arg.message mid => pred mid
  | _, _ => false

/-- Whether `dispatch_event` launches a listener for the given
arguments: no filter matches everything; a filter must accept at
least one published argument (`matched` breaks at the first
acceptance). -/
def listenerMatches (l : Listener) (args : List Arg) : Bool :=
  match l.filters with
  | none => true
  | some f => args.any (fun a => argMatches f a)

/-- The listeners `dispatch_event` launches tasks for, in sequence
order (`event_dispatcher.py` lines 108-131): the event's bucket
filtered by the match predicate; a missing or empty bucket launches
nothing. -/
def launchedListeners (m : ListenerMap) (event : String) (args : List Arg) : List Listener :=
  match lookupKey m event with
  | none => []
  | some lst => lst.filter (fun l => listenerMatches l args)

/-- L1 with priority 10, registered first. -/
def exL1reg : ListenerMap := register_listener [] 7 strEvt 1 10 none

/-- Then L2 with priority 10. -/
def exL2reg : ListenerMap := register_listener exL1reg 7 strEvt 2 10 none

/-- Then L3 with priority 5: the example bucket of the spec. -/
def exMap : ListenerMap := register_listener exL2reg 7 strEvt 3 5 none

/-- C6: the ordering invariant.  Every `register_listener` and every
`unregister_listener` preserves per-event non-decreasing priority
order; on a sorted bucket `bisect.insort` inserts the new listener
after every listener of priority less than or equal to its own and
before every strictly greater one (so equal priorities keep
registration order); dispatch launches listeners in bucket sequence
order; and in the concrete example — L1 (priority 10), L2 (priority
10), L3 (priority 5) subscribed in that order — the launch order is
L3, L1, L2. -/
theorem C6_listener_priority_order (m : ListenerMap) (mod : Nat) (event : String)
    (f : Nat) (prio : Int) (filt : Option Filt) (l : Listener) (hms : MapSorted m) :
    MapSorted (register_listener m mod event f prio filt) ∧
    MapSorted (unregister_listener m l).1 ∧
    (∀ (a : List Listener) (x : Listener), SortedByPriority a →
      insort a x = a.takeWhile (insortPred x) ++ x :: a.dropWhile (insortPred x)) ∧
    (∀ (m2 : ListenerMap) (ev : String) (args : List Arg) (lst : List Listener),
      lookupKey m2 ev = some lst →
      launchedListeners m2 ev args = lst.filter (fun y => listenerMatches y args)) ∧
    (launchedListeners exMap strEvt []).map Listener.func = [3, 1, 2] := by
  refine ⟨register_listener_mapSorted m mod event f prio filt hms,
    unregister_listener_mapSorted m l hms,
    insort_eq_of_sorted, ?_, rfl⟩
  intro m2 ev args lst hl
  unfold launchedListeners
  rw [hl]

/-- Witness for C6 at the concrete example map (whose buckets are
sorted, as required by the hypothesis). -/
theorem C6_witness :
    MapSorted (register_listener exMap 7 strEvt 4 7 none) ∧
    MapSorted (unregister_listener exMap ⟨strEvt, 1, 7, 10, none⟩).1 ∧
    (∀ (a : List Listener) (x : Listener), SortedByPriority a →
      insort a x = a.takeWhile (insortPred x) ++ x :: a.dropWhile (insortPred x)) ∧
    (∀ (m2 : ListenerMap) (ev : String) (args : List Arg) (lst : List Listener),
      lookupKey m2 ev = some lst →
      launchedListeners m2 ev args = lst.filter (fun y => listenerMatches y args)) ∧
    (launchedListeners exMap strEvt []).map Listener.func = [3, 1, 2] :=
  C6_listener_priority_order exMap 7 strEvt 4 7 none ⟨strEvt, 1, 7, 10, none⟩
    (by
      intro p hp
      have hm : exMap = [(strEvt, [⟨strEvt, 3, 7, 5, none⟩, ⟨strEvt, 1, 7, 10, none⟩,
          ⟨strEvt, 2, 7, 10, none⟩])] := rfl
      rw [hm] at hp
      rw [List.mem_singleton.mp hp]
      unfold SortedByPriority
      simp)

section Scheduler

/-- An abstract cooperative task: how many scheduling turns its body
needs, and the turn (if any) at which it raises.  This models one
listener task created by `self.loop.create_task(lst.func(*args))`
(`event_dispatcher.py` line 130): its behaviour is a function of the
listener and arguments alone, never of sibling tasks. -/
structure ATask where
  steps : Nat
  failsAt : Option Nat

/-- Scheduling state of one task. -/
inductive TStatus where
  | running (k : Nat)
  | finished
  | failed

/-- One cooperative turn of one task. -/
def advanceTask (t : ATask) (s : TStatus) : TStatus :=
  match s with
  | TStatus.running k =>
    if t.failsAt == some k then TStatus.failed
    else if t.steps ≤ k + 1 then TStatus.finished
    else TStatus.running (k + 1)
  | s => s

/-- Iterated turns of one task. -/
def advanceN (t : ATask) : Nat → TStatus → TStatus
  | 0, s => s
  | n + 1, s => advanceN t n (advanceTask t s)

/-- One round of the cooperative scheduler: every task gets a turn;
tasks advance independently of each other. -/
def schedulerRound (xs : List (ATask × TStatus)) : List (ATask × TStatus) :=
  xs.map (fun p => (p.1, advanceTask p.1 p.2))

/-- Iterated scheduler rounds. -/
def runRounds : Nat → List (ATask × TStatus) → List (ATask × TStatus)
  | 0, xs => xs
  | n + 1, xs => runRounds n (schedulerRound xs)

/-- Whether a task has completed (normally or with an exception). -/
def taskDone : TStatus → Bool
  | TStatus.running _ => false
  | _ => true

/-- The outcome a task reaches on its own: failed when its body
raises at some turn, finished otherwise. -/
def finalStatus (t : ATask) : TStatus :=
  match t.failsAt with
  | some _ => TStatus.failed
  | none => TStatus.finished

/-- A task only raises at a turn its body actually runs. -/
def ATaskWF (t : ATask) : Prop := ∀ j, t.failsAt = some j → j < t.steps

/-- `await asyncio.wait(tasks)` with the default `ALL_COMPLETED`:
drive scheduler rounds until every task has completed; one more round
than the total number of steps always suffices. -/
def awaitAll (xs : List (ATask × TStatus)) : List (ATask × TStatus) :=
  runRounds ((xs.map (fun p => p.1.steps)).sum + 1) xs

/-- `EventDispatcher.dispatch_event` with `wait=True`
(`event_dispatcher.py` lines 103-138): launch one task per matching
listener, return immediately when no task was launched, otherwise
suspend on `asyncio.wait` until all launched tasks completed and
return the listeners paired with their tasks' outcomes. -/
def dispatch_event_wait (m : ListenerMap) (event : String) (args : List Arg)
    (taskOf : Listener → ATask) : List (Listener × TStatus) :=
  let launched := launchedListeners m event args
  let pairs := launched.map (fun l => (taskOf l, TStatus.running 0))
  if pairs.isEmpty then []
  else launched.zip ((awaitAll pairs).map Prod.snd)

theorem advanceN_done (t : ATask) (n : Nat) (s : TStatus) (h : taskDone s = true) :
    advanceN t n s = s := by
  induction n with
  | zero => rfl
  | succ n ih =>
    show advanceN t n (advanceTask t s) = s
    cases s with
    | running k => cases h
    | finished => exact ih
    | failed => exact ih

theorem advanceN_running (t : ATask) (hwf : ATaskWF t) :
    ∀ n k, k < t.steps → t.steps ≤ k + n →
    advanceN t n (TStatus.running k) =
      (match t.failsAt with
       | some j => if k ≤ j then TStatus.failed else TStatus.finished
       | none => TStatus.finished) := by
  intro n
  induction n with
  | zero => intro k hk hle; exfalso; omega
  | succ n ih =>
    intro k hk hle
    show advanceN t n (advanceTask t (TStatus.running k)) = _
    unfold advanceTask
    dsimp only
    by_cases hf : t.failsAt == some k
    · rw [if_pos hf]
      rw [advanceN_done t n TStatus.failed rfl]
      have hfa : t.failsAt = some k := by
        cases hfa : t.failsAt with
        | some j =>
          rw [hfa] at hf
          exact beq_iff_eq.mp hf
        | none => rw [hfa] at hf; cases hf
      rw [hfa]
      simp
    · rw [if_neg hf]
      by_cases hs : t.steps ≤ k + 1
      · rw [if_pos hs]
        rw [advanceN_done t n TStatus.finished rfl]
        cases hfa : t.failsAt with
        | some j =>
          have hj := hwf j hfa
          have hjk : ¬ k ≤ j := by
            intro hkj
            have : j = k := by omega
            rw [hfa, this] at hf
            simp at hf
          simp [hjk]
        | none => rfl
      · rw [if_neg hs]
        rw [ih (k + 1) (by omega) (by omega)]
        cases hfa : t.failsAt with
        | some j =>
          have hjne : ¬ j = k := by
            intro he
            rw [hfa, he] at hf
            simp at hf
          by_cases hkj : k ≤ j
          · have : k + 1 ≤ j := by omega
            simp [this, hkj]
          · have : ¬ k + 1 ≤ j := by omega
            simp [this, hkj]
        | none => rfl

theorem advanceN_final (t : ATask) (hwf : ATaskWF t) (n : Nat) (hn : t.steps + 1 ≤ n) :
    advanceN t n (TStatus.running 0) = finalStatus t := by
  by_cases h0 : t.steps = 0
  · have hfa : t.failsAt = none := by
      cases hfa : t.failsAt with
      | some j => exact absurd (hwf j hfa) (by omega)
      | none => rfl
    obtain ⟨m, rfl⟩ : ∃ m, n = m + 1 := ⟨n - 1, by omega⟩
    show advanceN t m (advanceTask t (TStatus.running 0)) = _
    unfold advanceTask
    dsimp only
    rw [hfa]
    have h1 : t.steps ≤ 0 + 1 := by omega
    have hfinal : finalStatus t = TStatus.finished := by
      unfold finalStatus
      rw [hfa]
    rw [hfinal]
    have hbeq : ((none : Option Nat) == some 0) = false := rfl
    rw [hbeq]
    simp only [Bool.false_eq_true, if_false, h1, if_true]
    exact advanceN_done t m TStatus.finished rfl
  · rw [advanceN_running t hwf n 0 (by omega) (by omega)]
    unfold finalStatus
    cases hfa : t.failsAt with
    | some j => simp
    | none => rfl

theorem runRounds_map (g : Listener → ATask) :
    ∀ (n : Nat) (h : Listener → TStatus) (ls : List Listener),
    runRounds n (ls.map (fun l => (g l, h l))) =
      ls.map (fun l => (g l, advanceN (g l) n (h l))) := by
  intro n
  induction n with
  | zero => intro h ls; rfl
  | succ n ih =>
    intro h ls
    show runRounds n (schedulerRound (ls.map (fun l => (g l, h l)))) = _
    have hround : schedulerRound (ls.map (fun l => (g l, h l))) =
        ls.map (fun l => (g l, advanceTask (g l) (h l))) := by
      unfold schedulerRound
      rw [List.map_map]
      rfl
    rw [hround, ih (fun l => advanceTask (g l) (h l)) ls]
    rfl

theorem zip_self_map {α β : Type} (l : List α) (g : α → β) :
    l.zip (l.map g) = l.map (fun x => (x, g x)) := by
  induction l with
  | nil => rfl
  | cons a rest ih =>
    show (a, g a) :: rest.zip (rest.map g) = _
    rw [ih]
    rfl

theorem taskDone_finalStatus (t : ATask) : taskDone (finalStatus t) = true := by
  unfold finalStatus
  cases t.failsAt <;> rfl

/-- C7: with `wait=True`, `dispatch_event` returns only after every
task it launched has completed (the default `ALL_COMPLETED` of
`asyncio.wait`): the call returns the launched listeners each paired
with a completed outcome, and each listener's outcome is
`finalStatus` of its own task alone — one listener's raising task
neither prevents the sibling listeners from running to completion nor
prevents the dispatch call itself from completing normally. -/
theorem C7_dispatch_wait_all_completed (m : ListenerMap) (event : String) (args : List Arg)
    (taskOf : Listener → ATask) (hwf : ∀ l, ATaskWF (taskOf l)) :
    dispatch_event_wait m event args taskOf =
      (launchedListeners m event args).map (fun l => (l, finalStatus (taskOf l))) ∧
    ∀ p ∈ dispatch_event_wait m event args taskOf, taskDone p.2 = true := by
  have h1 : dispatch_event_wait m event args taskOf =
      (launchedListeners m event args).map (fun l => (l, finalStatus (taskOf l))) := by
    unfold dispatch_event_wait
    dsimp only
    by_cases hemp : ((launchedListeners m event args).map
        (fun l => (taskOf l, TStatus.running 0))).isEmpty = true
    · rw [if_pos hemp]
      have : launchedListeners m event args = [] := by
        have h2 := List.isEmpty_iff.mp hemp
        exact List.map_eq_nil_iff.mp h2
      rw [this]
      rfl
    · rw [if_neg hemp]
      set launched := launchedListeners m event args with hlaunch
      set N := ((launched.map (fun l => (taskOf l, TStatus.running 0))).map
        (fun p : ATask × TStatus => p.1.steps)).sum + 1 with hN
      unfold awaitAll
      rw [runRounds_map taskOf N (fun _ => TStatus.running 0) launched]
      have hfin : ∀ l ∈ launched,
          advanceN (taskOf l) N (TStatus.running 0) = finalStatus (taskOf l) := by
        intro l hl
        apply advanceN_final (taskOf l) (hwf l)
        have hmem : (taskOf l).steps ∈ (launched.map
            (fun l => (taskOf l, TStatus.running 0))).map
            (fun p : ATask × TStatus => p.1.steps) := by
          rw [List.map_map]
          exact List.mem_map.mpr ⟨l, hl, rfl⟩
        have := List.single_le_sum (fun (x : Nat) _ => Nat.zero_le x) _ hmem
        rw [hN]
        omega
      have hmaps : (launched.map
            (fun l => (taskOf l, advanceN (taskOf l) N (TStatus.running 0)))).map Prod.snd =
          launched.map (fun l => finalStatus (taskOf l)) := by
        rw [List.map_map]
        apply List.map_congr_left
        intro l hl
        exact congrArg Prod.snd (congrArg (fun s => (taskOf l, s)) (hfin l hl))
      rw [hmaps, zip_self_map]
  refine ⟨h1, ?_⟩
  intro p hp
  rw [h1] at hp
  rcases List.mem_map.mp hp with ⟨l, _, rfl⟩
  exact taskDone_finalStatus (taskOf l)

/-- A listener whose message filter rejects every payload. -/
def rejectAllListener : Listener := ⟨strEvt, 9, 7, 100, some (Filt.msgFilter (fun _ => false))⟩

/-- The task function used in the C7 witness: listener 1's task
raises at its first turn, every other task runs two turns and
finishes. -/
def exTaskOf : Listener → ATask :=
  fun l => if l.func == 1 then ⟨1, some 0⟩ else ⟨2, none⟩

/-- Witness for C7 at the concrete example bucket, with listener 1's
task failing and the others succeeding. -/
theorem C7_witness :
    dispatch_event_wait exMap strEvt [] exTaskOf =
      (launchedListeners exMap strEvt []).map (fun l => (l, finalStatus (exTaskOf l))) ∧
    ∀ p ∈ dispatch_event_wait exMap strEvt [] exTaskOf, taskDone p.2 = true :=
  C7_dispatch_wait_all_completed exMap strEvt [] exTaskOf
    (by
      intro l j hj
      unfold exTaskOf at hj ⊢
      by_cases hf : l.func == 1
      · rw [if_pos hf] at hj ⊢
        dsimp only at hj ⊢
        injection hj with hj
        omega
      · rw [if_neg hf] at hj
        dsimp only at hj
        cases hj)

/-- C8: filter gating.  A listener whose filter accepts none of the
published arguments (in particular when no argument is a message
payload the filter understands) is never launched; and when no
listener of the event matches, the launched list is empty and
`dispatch_event` returns immediately with no work done. -/
theorem C8_filter_rejection_skips (m : ListenerMap) (event : String) (args : List Arg) :
    (∀ l ∈ (lookupKey m event).getD [], ∀ f, l.filters = some f →
      (∀ a ∈ args, argMatches f a = false) → ¬ l ∈ launchedListeners m event args) ∧
    ((∀ l ∈ (lookupKey m event).getD [], listenerMatches l args = false) →
      launchedListeners m event args = [] ∧
      ∀ taskOf : Listener → ATask, dispatch_event_wait m event args taskOf = []) := by
  constructor
  · intro l _ f hf hrej hmem
    unfold launchedListeners at hmem
    cases hl : lookupKey m event with
    | none => rw [hl] at hmem; cases hmem
    | some lst =>
      rw [hl] at hmem
      have hmatch := List.of_mem_filter hmem
      unfold listenerMatches at hmatch
      rw [hf] at hmatch
      rcases List.any_eq_true.mp hmatch with ⟨a, ha, haf⟩
      rw [hrej a ha] at haf
      cases haf
  · intro hall
    have hnil : launchedListeners m event args = [] := by
      unfold launchedListeners
      cases hl : lookupKey m event with
      | none => rfl
      | some lst =>
        rw [List.filter_eq_nil_iff]
        intro l hlmem
        have : l ∈ (lookupKey m event).getD [] := by rw [hl]; exact hlmem
        rw [hall l this]
        simp
    refine ⟨hnil, ?_⟩
    intro taskOf
    unfold dispatch_event_wait
    rw [hnil]
    rfl

/-- Witness for C8: a bucket holding only a listener whose filter
rejects everything, published with one message argument. -/
theorem C8_witness :
    (¬ rejectAllListener ∈
      launchedListeners [(strEvt, [rejectAllListener])] strEvt [Arg.message 0]) ∧
    launchedListeners [(strEvt, [rejectAllListener])] strEvt [Arg.message 0] = [] ∧
    dispatch_event_wait [(strEvt, [rejectAllListener])] strEvt [Arg.message 0] exTaskOf = [] := by
  have h := C8_filter_rejection_skips [(strEvt, [rejectAllListener])] strEvt [Arg.message 0]
  have hgetd : rejectAllListener ∈
      (lookupKey [(strEvt, [rejectAllListener])] strEvt).getD [] := by
    rw [show lookupKey [(strEvt, [rejectAllListener])] strEvt = some [rejectAllListener] from rfl]
    exact List.mem_singleton.mpr rfl
  have hrej : ∀ a ∈ [Arg.message 0],
      argMatches (Filt.msgFilter (fun _ => false)) a = false := by
    intro a ha
    rw [List.mem_singleton.mp ha]
    rfl
  have hall : ∀ l ∈ (lookupKey [(strEvt, [rejectAllListener])] strEvt).getD [],
      listenerMatches l [Arg.message 0] = false := by
    intro l hl
    rw [show lookupKey [(strEvt, [rejectAllListener])] strEvt = some [rejectAllListener] from rfl]
      at hl
    rw [List.mem_singleton.mp hl]
    rfl
  obtain ⟨hnil, hdisp⟩ := h.2 hall
  exact ⟨h.1 rejectAllListener hgetd (Filt.msgFilter (fun _ => false)) rfl hrej,
    hnil, hdisp exTaskOf⟩

end Scheduler

section Pagination

/-- Python text as a character list (Python indexing and slicing are
character-wise). -/
abbrev Text := List Char

/-- `telegram.constants.MessageLimit.MAX_TEXT_LENGTH`, the value of
`util.tg.MESSAGE_CHAR_LIMIT` (`util/tg.py` line 9). -/
def MESSAGE_CHAR_LIMIT : Nat := 4096

/-- The three-character ellipsis marker used by `respond_split`. -/
def threeDots : Text := "...".toList

/-- The page text computed by one iteration of
`Context.respond_split` (`command.py` lines 219-241): the if-cascade
over remaining length, first page, and last-allowed page. -/
def splitPage (maxPages sent : Nat) (text : Text) : Text :=
  if text.length ≤ 4096 then
    if sent == 0 then text.take MESSAGE_CHAR_LIMIT
    else threeDots ++ text.take (MESSAGE_CHAR_LIMIT - 3)
  else if sent == maxPages - 1 then
    if sent == 0 then text else threeDots ++ text
  else
    if sent == 0 then text.take (MESSAGE_CHAR_LIMIT - 3) ++ threeDots
    else threeDots ++ text.take (MESSAGE_CHAR_LIMIT - 6) ++ threeDots

/-- The `ellipsis_chars` value computed alongside the page in the
same if-cascade. -/
def splitEll (maxPages sent : Nat) (text : Text) : Nat :=
  if text.length ≤ 4096 then (if sent == 0 then 0 else 3)
  else if sent == maxPages - 1 then (if sent == 0 then 0 else 3)
  else (if sent == 0 then 3 else 6)

/-- The `while text and pages_sent < max_pages` loop of
`Context.respond_split` (`command.py` lines 217-244), collecting the
pages handed to `respond_multi` in order; `fuel` counts the loop
iterations still possible, which the guard `pages_sent < max_pages`
bounds by `max_pages`. -/
def respondSplitLoop (maxPages : Nat) : Nat → Nat → Text → List Text
  | 0, _, _ => []
  | fuel + 1, sent, text =>
    if text.isEmpty then []
    else if maxPages ≤ sent then []
    else
      splitPage maxPages sent text ::
        respondSplitLoop maxPages fuel (sent + 1)
          (text.drop (MESSAGE_CHAR_LIMIT - splitEll maxPages sent text))

/-- All pages `Context.respond_split` emits for the given text and
page cap. -/
def respondSplitPages (maxPages : Nat) (text : Text) : List Text :=
  respondSplitLoop maxPages maxPages 0 text

theorem splitPage_le (maxPages sent : Nat) (text : Text)
    (hne : ¬ sent + 1 = maxPages) (hsent : sent < maxPages) :
    (splitPage maxPages sent text).length ≤ 4096 := by
  have h3 : threeDots.length = 3 := rfl
  unfold splitPage
  by_cases h1 : text.length ≤ 4096
  · rw [if_pos h1]
    by_cases h0 : sent == 0
    · rw [if_pos h0]
      rw [List.length_take]
      unfold MESSAGE_CHAR_LIMIT
      omega
    · rw [if_neg h0]
      rw [List.length_append, List.length_take, h3]
      unfold MESSAGE_CHAR_LIMIT
      omega
  · rw [if_neg h1]
    by_cases h2 : sent == maxPages - 1
    · exfalso
      have := beq_iff_eq.mp h2
      omega
    · rw [if_neg h2]
      by_cases h0 : sent == 0
      · rw [if_pos h0]
        rw [List.length_append, List.length_take, h3]
        unfold MESSAGE_CHAR_LIMIT
        omega
      · rw [if_neg h0]
        rw [List.length_append, List.length_append, List.length_take, h3]
        unfold MESSAGE_CHAR_LIMIT
        omega

theorem respondSplitLoop_spec (maxPages : Nat) :
    ∀ (fuel sent : Nat) (text : Text),
    (respondSplitLoop maxPages fuel sent text).length ≤ maxPages - sent ∧
    (∀ i : Nat, sent + i + 1 ≠ maxPages →
      ((respondSplitLoop maxPages fuel sent text).getD i []).length ≤ 4096) := by
  intro fuel
  induction fuel with
  | zero =>
    intro sent text
    refine ⟨by simp [respondSplitLoop], ?_⟩
    intro i _
    simp [respondSplitLoop]
  | succ fuel ih =>
    intro sent text
    by_cases hempt : text.isEmpty
    · have hstep : respondSplitLoop maxPages (fuel + 1) sent text = [] := by
        unfold respondSplitLoop
        rw [if_pos hempt]
      rw [hstep]
      refine ⟨by simp, ?_⟩
      intro i _
      simp
    · by_cases hsent : maxPages ≤ sent
      · have hstep : respondSplitLoop maxPages (fuel + 1) sent text = [] := by
          unfold respondSplitLoop
          rw [if_neg hempt, if_pos hsent]
        rw [hstep]
        refine ⟨by simp, ?_⟩
        intro i _
        simp
      · have hstep0 : respondSplitLoop maxPages (fuel + 1) sent text =
            (if text.isEmpty then [] else if maxPages ≤ sent then []
              else splitPage maxPages sent text ::
                respondSplitLoop maxPages fuel (sent + 1)
                  (text.drop (MESSAGE_CHAR_LIMIT - splitEll maxPages sent text))) := rfl
        rw [hstep0, if_neg hempt, if_neg hsent]
        obtain ⟨ihlen, ihpage⟩ := ih (sent + 1)
          (text.drop (MESSAGE_CHAR_LIMIT - splitEll maxPages sent text))
        constructor
        · rw [List.length_cons]
          omega
        · intro i hne
          cases i with
          | zero =>
            rw [List.getD_cons_zero]
            exact splitPage_le maxPages sent text (by omega) (by omega)
          | succ i =>
            rw [List.getD_cons_succ]
            exact ihpage i (by omega)

/-- C4 (amended): `respond_split` emits at most `max_pages` pages,
and every emitted page except possibly the one at the page cap
(iteration index `max_pages - 1`) fits in the transport's maximum
single-message length including its ellipsis markers.  The page
emitted at the cap, however, carries the entire remaining text when
that text still exceeds the limit (the `pages_sent == max_pages - 1`
branch at `command.py` lines 227-233 does not slice), so that single
page can exceed the limit — only the transport-level `truncate` in
`TelegramBot.respond` cuts it down. -/
theorem C4_respond_split_page_bounds (text : Text) (maxPages : Nat) :
    (respondSplitPages maxPages text).length ≤ maxPages ∧
    (∀ i : Nat, i + 1 ≠ maxPages →
      ((respondSplitPages maxPages text).getD i []).length ≤ MESSAGE_CHAR_LIMIT) := by
  obtain ⟨hlen, hpage⟩ := respondSplitLoop_spec maxPages maxPages 0 text
  refine ⟨by simpa using hlen, ?_⟩
  intro i hne
  exact hpage i (by omega)

/-- The letter used to build long concrete inputs. -/
def aChar : Char := 'a'

/-- C4 counterexample: with a page cap of 1 and an input of 4097
characters, `respond_split` emits one page whose length is 4097 —
exceeding the transport's 4096-character maximum, so not every
emitted page fits within the limit. -/
theorem C4_counterexample :
    ¬ (∀ p ∈ respondSplitPages 1 (List.replicate 4097 aChar), p.length ≤ 4096) := by
  intro hall
  have hlen : (List.replicate 4097 aChar).length = 4097 := List.length_replicate 4097 aChar
  have hne : (List.replicate 4097 aChar).isEmpty = false := by
    rw [show (4097 : Nat) = 4096 + 1 from rfl, List.replicate_succ]
    rfl
  have hpage : splitPage 1 0 (List.replicate 4097 aChar) = List.replicate 4097 aChar := by
    unfold splitPage
    rw [hlen]
    norm_num
  have hstep : respondSplitPages 1 (List.replicate 4097 aChar) =
      [List.replicate 4097 aChar] := by
    unfold respondSplitPages respondSplitLoop
    rw [hne]
    norm_num
    rw [hpage]
    exact ⟨rfl, rfl⟩
  have := hall (List.replicate 4097 aChar) (by rw [hstep]; exact List.mem_singleton.mpr rfl)
  rw [hlen] at this
  omega

/-- Witness for C4 at a concrete input: 5000 characters with a page
cap of 3 give at most 3 pages, and every page not at the cap fits in
the limit. -/
theorem C4_witness :
    (respondSplitPages 3 (List.replicate 5000 aChar)).length ≤ 3 ∧
    (∀ i : Nat, i + 1 ≠ 3 →
      ((respondSplitPages 3 (List.replicate 5000 aChar)).getD i []).length ≤ MESSAGE_CHAR_LIMIT) :=
  C4_respond_split_page_bounds (List.replicate 5000 aChar) 3

end Pagination

section CommandErrors

/-- An exception escaping `cmd.func(ctx)` (or the `ctx.respond` call
on its result) inside `CommandDispatcher.on_command`: either a
`telegram.error.BadRequest` carrying its message text, or any other
exception (identified by a tag). -/
inductive HandlerErr where
  | badRequest (msg : String)
  | other (tag : Nat)

/-- Python substring containment (`pat in s`) on character lists. -/
def containsSub : Text → Text → Bool
  | pat, [] => pat.isEmpty
  | pat, c :: rest => pat.isPrefixOf (c :: rest) || containsSub pat rest

/-- The marker `on_command` searches for in the lowercased
`BadRequest` text (`cmd_dispatcher.py` line 168). -/
def unmodifiedMarker : String := "message is not modified"

/-- Whether the exception is the transport's recoverable
"content unchanged" signal: a `BadRequest` whose lowercased message
contains the marker. -/
def isUnmodifiedSignal : HandlerErr → Bool
  | HandlerErr.badRequest msg =>
      containsSub unmodifiedMarker.toList (msg.toList.map Char.toLower)
  | HandlerErr.other _ => false

/-- The `try`/`except` tail of `CommandDispatcher.on_command`
(`cmd_dispatcher.py` lines 163-175), as a function of the handler
invocation's outcome.  Returns whether the
`dispatch_event("command", ...)` line after the `try` block was
reached, together with the exception propagating out of `on_command`
(if any): a recoverable `BadRequest` is logged and swallowed so
execution falls through to the dispatch line; any other exception is
re-raised by the bare `raise`, skipping the dispatch line. -/
def on_command_tail (res : Except HandlerErr Unit) : Bool × Option HandlerErr :=
  match res with
  | Except.ok _ => (true, none)
  | Except.error e =>
    match e with
    | HandlerErr.badRequest msg =>
      if containsSub unmodifiedMarker.toList (msg.toList.map Char.toLower) then (true, none)
      else (false, some (HandlerErr.badRequest msg))
    | HandlerErr.other t => (false, some (HandlerErr.other t))

/-- C5 (amended): a recoverable "content unchanged" `BadRequest` is
swallowed and dispatch completes normally with the `command`
lifecycle event fired; any other exception is re-raised unchanged to
the caller — and in that re-raise case the `command` lifecycle event
is NOT fired, because the dispatch line sits after the `try` block
with no `finally`. -/
theorem C5_on_command_error_handling :
    (on_command_tail (Except.ok ()) = (true, none)) ∧
    (∀ msg : String, isUnmodifiedSignal (HandlerErr.badRequest msg) = true →
      on_command_tail (Except.error (HandlerErr.badRequest msg)) = (true, none)) ∧
    (∀ e : HandlerErr, isUnmodifiedSignal e = false →
      on_command_tail (Except.error e) = (false, some e)) := by
  refine ⟨rfl, ?_, ?_⟩
  · intro msg h
    unfold isUnmodifiedSignal at h
    dsimp only at h
    unfold on_command_tail
    dsimp only
    rw [if_pos h]
  · intro e h
    cases e with
    | badRequest msg =>
      unfold isUnmodifiedSignal at h
      dsimp only at h
      unfold on_command_tail
      dsimp only
      rw [h]
      simp
    | other t => rfl

/-- C5 counterexample: when the handler raises a non-`BadRequest`
exception, `on_command` re-raises it and the `command` lifecycle
event line is never reached — the event does not fire in every case,
contradicting the claim. -/
theorem C5_counterexample :
    (on_command_tail (Except.error (HandlerErr.other 0))).1 = false ∧
    (on_command_tail (Except.error (HandlerErr.other 0))).2 = some (HandlerErr.other 0) :=
  ⟨rfl, rfl⟩

/-- A realistic recoverable transport message. -/
def unmodifiedBadRequestMsg : String := "Bad Request: message is not modified"

/-- Witness for the amended C5 theorem: the concrete recoverable
message is swallowed with the event fired; a concrete other exception
is re-raised. -/
theorem C5_witness :
    on_command_tail (Except.error (HandlerErr.badRequest unmodifiedBadRequestMsg)) =
      (true, none) ∧
    on_command_tail (Except.error (HandlerErr.other 3)) = (false, some (HandlerErr.other 3)) :=
  ⟨C5_on_command_error_handling.2.1 unmodifiedBadRequestMsg (by decide),
   C5_on_command_error_handling.2.2 (HandlerErr.other 3) rfl⟩

end CommandErrors

section Truncation

/-- The Markdown code-fence marker checked by `truncate`
(`util/tg.py` line 80). -/
def threeTicks : Text := "```".toList

/-- `util.tg.TRUNCATION_SUFFIX` (`util/tg.py` line 10). -/
def TRUNCATION_SUFFIX : Text := "... (truncated)".toList

/-- `util.tg.truncate` (`util/tg.py` lines 77-84): append the code
fence to the suffix when the text ends in one, then cut the text to
`MESSAGE_CHAR_LIMIT - len(suffix)` characters and append the suffix
whenever the text exceeds the limit. -/
def truncate (text : Text) : Text :=
  let suffix := if threeTicks.isSuffixOf text then TRUNCATION_SUFFIX ++ threeTicks
    else TRUNCATION_SUFFIX
  if MESSAGE_CHAR_LIMIT < text.length then
    text.take (MESSAGE_CHAR_LIMIT - suffix.length) ++ suffix
  else text

/-- The replacement marker of `TelegramBot.redact_message`
(`telegram_bot.py` line 218). -/
def REDACTED : Text := "[REDACTED]".toList

/-- Python `str.replace` on character lists, with an iteration budget
(the text length always suffices: each step consumes at least one
character). -/
def replaceAll : Nat → Text → Text → Text → Text
  | 0, s, _, _ => s
  | _, [], _, _ => []
  | fuel + 1, c :: rest, pat, rep =>
    if pat ≠ [] ∧ pat.isPrefixOf (c :: rest) then
      rep ++ replaceAll fuel ((c :: rest).drop pat.length) pat rep
    else c :: replaceAll fuel rest pat rep

/-- `TelegramBot.redact_message` (`telegram_bot.py` lines 217-222):
replace the configured bot token (when set and present) with the
redaction marker. -/
def redact_message (token : Option Text) (text : Text) : Text :=
  match token with
  | some tk =>
    if !tk.isEmpty && containsSub tk text then replaceAll text.length text tk REDACTED
    else text
  | none => text

/-- The text pipeline of `TelegramBot.respond` (`telegram_bot.py`
lines 291-294): when the text is non-empty, redact it (if enabled)
and then truncate it before any reply or edit is sent. -/
def respondText (text : Text) (redact : Bool) (token : Option Text) : Text :=
  if text.isEmpty then text
  else truncate (if redact then redact_message token text else text)

theorem truncate_over_no_fence (r : Text) (hover : MESSAGE_CHAR_LIMIT < r.length)
    (hfence : threeTicks.isSuffixOf r = false) :
    truncate r = r.take (MESSAGE_CHAR_LIMIT - TRUNCATION_SUFFIX.length) ++ TRUNCATION_SUFFIX := by
  unfold truncate
  dsimp only
  rw [hfence]
  simp only [Bool.false_eq_true, if_false, if_pos hover]

theorem truncate_over_fence (r : Text) (hover : MESSAGE_CHAR_LIMIT < r.length)
    (hfence : threeTicks.isSuffixOf r = true) :
    truncate r = r.take (MESSAGE_CHAR_LIMIT - (TRUNCATION_SUFFIX ++ threeTicks).length) ++
      (TRUNCATION_SUFFIX ++ threeTicks) := by
  unfold truncate
  dsimp only
  rw [hfence]
  simp only [if_true, if_pos hover]

theorem truncate_length_le (r : Text) : (truncate r).length ≤ MESSAGE_CHAR_LIMIT := by
  have hTS : TRUNCATION_SUFFIX.length = 15 := rfl
  have hTT : (TRUNCATION_SUFFIX ++ threeTicks).length = 18 := rfl
  by_cases hover : MESSAGE_CHAR_LIMIT < r.length
  · cases hfence : threeTicks.isSuffixOf r with
    | true =>
      rw [truncate_over_fence r hover hfence]
      rw [List.length_append, List.length_take, hTT]
      unfold MESSAGE_CHAR_LIMIT at hover ⊢
      omega
    | false =>
      rw [truncate_over_no_fence r hover hfence]
      rw [List.length_append, List.length_take, hTS]
      unfold MESSAGE_CHAR_LIMIT at hover ⊢
      omega
  · have : truncate r = r := by
      unfold truncate
      dsimp only
      rw [if_neg hover]
    rw [this]
    omega

theorem truncate_over_length (r : Text) (hover : MESSAGE_CHAR_LIMIT < r.length) :
    (truncate r).length = MESSAGE_CHAR_LIMIT := by
  have hTS : TRUNCATION_SUFFIX.length = 15 := rfl
  have hTT : (TRUNCATION_SUFFIX ++ threeTicks).length = 18 := rfl
  cases hfence : threeTicks.isSuffixOf r with
  | true =>
    rw [truncate_over_fence r hover hfence]
    rw [List.length_append, List.length_take, hTT]
    unfold MESSAGE_CHAR_LIMIT at hover ⊢
    omega
  | false =>
    rw [truncate_over_no_fence r hover hfence]
    rw [List.length_append, List.length_take, hTS]
    unfold MESSAGE_CHAR_LIMIT at hover ⊢
    omega

/-- C10 (amended): every text sent through `respond` is capped at the
transport's maximum single-message length; a non-empty text is sent
as `truncate` of the (possibly redacted) text; and a text over the
limit is cut to exactly the limit and ends with the suffix
"... (truncated)" — except that a text ending in a Markdown code
fence instead ends with "... (truncated)```", the fence-preserving
variant. -/
theorem C10_respond_truncates (text : Text) (redact : Bool) (token : Option Text) :
    (respondText text redact token).length ≤ MESSAGE_CHAR_LIMIT ∧
    (text.isEmpty = false →
      respondText text redact token =
        truncate (if redact then redact_message token text else text)) ∧
    (∀ r : Text, MESSAGE_CHAR_LIMIT < r.length →
      (truncate r).length = MESSAGE_CHAR_LIMIT ∧
      (threeTicks.isSuffixOf r = false → TRUNCATION_SUFFIX <:+ truncate r) ∧
      (threeTicks.isSuffixOf r = true →
        (TRUNCATION_SUFFIX ++ threeTicks) <:+ truncate r)) := by
  refine ⟨?_, ?_, ?_⟩
  · unfold respondText
    by_cases hemp : text.isEmpty
    · rw [if_pos hemp]
      have : text = [] := List.isEmpty_iff.mp hemp
      rw [this]
      unfold MESSAGE_CHAR_LIMIT
      simp
    · rw [if_neg hemp]
      exact truncate_length_le _
  · intro hemp
    unfold respondText
    rw [hemp]
    simp
  · intro r hover
    refine ⟨truncate_over_length r hover, ?_, ?_⟩
    · intro hfence
      rw [truncate_over_no_fence r hover hfence]
      exact ⟨_, rfl⟩
    · intro hfence
      rw [truncate_over_fence r hover hfence]
      exact ⟨_, rfl⟩

/-- The concrete over-limit text ending in a code fence. -/
def fencedLong : Text := List.replicate 4097 aChar ++ threeTicks

/-- C10 counterexample: for a 4100-character text ending in a
Markdown code fence, the sent text does NOT end with the suffix
"... (truncated)" — the fence variant puts the three backticks after
it — so the claim's trailing-suffix condition fails while the length
bound still holds. -/
theorem C10_counterexample :
    MESSAGE_CHAR_LIMIT < fencedLong.length ∧
    ¬ (TRUNCATION_SUFFIX <:+ respondText fencedLong false none) := by
  have hlen : fencedLong.length = 4100 := by
    unfold fencedLong
    rw [List.length_append, List.length_replicate]
    rfl
  have hover : MESSAGE_CHAR_LIMIT < fencedLong.length := by
    rw [hlen]
    unfold MESSAGE_CHAR_LIMIT
    omega
  refine ⟨hover, ?_⟩
  have hemp : fencedLong.isEmpty = false := by
    unfold fencedLong
    rw [show (4097 : Nat) = 4096 + 1 from rfl, List.replicate_succ, List.cons_append]
    rfl
  have hfence : threeTicks.isSuffixOf fencedLong = true := by
    rw [List.isSuffixOf_iff_suffix]
    exact ⟨List.replicate 4097 aChar, rfl⟩
  have hresp : respondText fencedLong false none =
      fencedLong.take (MESSAGE_CHAR_LIMIT - (TRUNCATION_SUFFIX ++ threeTicks).length) ++
        (TRUNCATION_SUFFIX ++ threeTicks) := by
    unfold respondText
    rw [hemp]
    simp only [Bool.false_eq_true, if_false]
    exact truncate_over_fence fencedLong hover hfence
  rw [hresp]
  intro hsuf
  obtain ⟨pre, hpre⟩ := hsuf
  have htick : (fencedLong.take (MESSAGE_CHAR_LIMIT - (TRUNCATION_SUFFIX ++ threeTicks).length) ++
      (TRUNCATION_SUFFIX ++ threeTicks)).getLast? = some (Char.ofNat 96) := by
    rw [show TRUNCATION_SUFFIX ++ threeTicks =
      (TRUNCATION_SUFFIX ++ [Char.ofNat 96, Char.ofNat 96]) ++ [Char.ofNat 96] from by decide]
    rw [← List.append_assoc]
    exact List.getLast?_concat _
  have hparen : (pre ++ TRUNCATION_SUFFIX).getLast? = some (Char.ofNat 41) := by
    rw [show TRUNCATION_SUFFIX = "... (truncated".toList ++ [Char.ofNat 41] from by decide]
    rw [← List.append_assoc]
    exact List.getLast?_concat _
  rw [← hpre] at htick
  rw [htick] at hparen
  have := Option.some.inj hparen
  exact absurd (congrArg Char.toNat this) (by decide)

/-- Witness for the amended C10 theorem: a 4097-character text
without a fence is sent as its truncation, capped at the limit and
ending with the plain suffix. -/
theorem C10_witness :
    (respondText (List.replicate 4097 aChar) false none).length ≤ MESSAGE_CHAR_LIMIT ∧
    respondText (List.replicate 4097 aChar) false none =
      truncate (List.replicate 4097 aChar) ∧
    (truncate (List.replicate 4097 aChar)).length = MESSAGE_CHAR_LIMIT ∧
    TRUNCATION_SUFFIX <:+ truncate (List.replicate 4097 aChar) := by
  have hemp : (List.replicate 4097 aChar).isEmpty = false := by
    rw [show (4097 : Nat) = 4096 + 1 from rfl, List.replicate_succ]
    rfl
  have hover : MESSAGE_CHAR_LIMIT < (List.replicate 4097 aChar).length := by
    rw [List.length_replicate]
    unfold MESSAGE_CHAR_LIMIT
    omega
  have hfence : threeTicks.isSuffixOf (List.replicate 4097 aChar) = false := by
    cases hq : threeTicks.isSuffixOf (List.replicate 4097 aChar) with
    | false => rfl
    | true =>
      exfalso
      obtain ⟨pre, hpre⟩ := List.isSuffixOf_iff_suffix.mp hq
      have hmem : Char.ofNat 96 ∈ List.replicate 4097 aChar := by
        rw [← hpre]
        apply List.mem_append_right
        rw [show threeTicks = [Char.ofNat 96, Char.ofNat 96, Char.ofNat 96] from by decide]
        exact List.mem_cons_self _ _
      have := List.eq_of_mem_replicate hmem
      exact absurd (congrArg Char.toNat this) (by decide)
  obtain ⟨h1, h2, h3⟩ := C10_respond_truncates (List.replicate 4097 aChar) false none
  obtain ⟨h4, h5, _⟩ := h3 (List.replicate 4097 aChar) hover
  have h6 := h2 hemp
  simp only [Bool.false_eq_true, if_false] at h6
  exact ⟨h1, h6, h4, h5 hfence⟩

end Truncation

end Zyra
